import Mathlib

/-!
A shallow embedding of `BinarySearchTree.h`.

The container of `src/BinarySearchTree.h` is an unbalanced binary search tree over a
totally ordered value type `_Ty`, with a live-element counter `_tree_size` of type
`std::size_t`.

* A `Node*` is modelled by `Tree α`: `Tree.nil` is `nullptr`, `Tree.node l x r` is a pointer
  to an owned `Node` whose fields are `_left = l`, `_value = x`, `_right = r`.  Nodes are
  exclusively owned, so the pointer graph below a tree's root is a finite tree.  The
  `_parent` back-reference is read by no function of the header and is not part of this
  model of the values; `PTree α` models the nodes once more with their addresses and their
  `_parent` fields, for the statements on parent links and on the sharing of nodes.
* `std::size_t` is modelled by `Nat` with explicit wrap-around modulo `SIZE_MOD = 2 ^ 64`.
* `_Ty` is any type with a total order (`LinearOrder α`); the comparisons `<`, `>` of the
  source are the comparisons of that order.
-/

namespace BST

/-! ## Data model -/

/-- A `Node*`: either `nullptr` (`nil`) or an owned node with `_left`, `_value`, `_right`. -/
inductive Tree (α : Type) where
  | nil : Tree α
  | node (left : Tree α) (value : α) (right : Tree α) : Tree α
  deriving DecidableEq

/-- The test `node == nullptr` on a node pointer. -/
def Tree.isNull {α : Type} : Tree α → Bool
  | Tree.nil => true
  | Tree.node _ _ _ => false

/-- The class `BinarySearchTree<_Ty>`: the owned root and the element counter. -/
structure BinarySearchTree (α : Type) where
  root : Tree α
  tree_size : Nat
  deriving DecidableEq

/-- Number of values of `std::size_t` (64-bit target). -/
def SIZE_MOD : Nat := 2 ^ 64

/-- The statement `++_tree_size` on a `std::size_t`. -/
def size_incr (n : Nat) : Nat := (n + 1) % SIZE_MOD

/-- The statement `--_tree_size` on a `std::size_t` (0 wraps to `SIZE_MOD - 1`). -/
def size_decr (n : Nat) : Nat := (n + SIZE_MOD - 1) % SIZE_MOD

/-! ## Observations used in the statements -/

/-- Number of nodes reachable from a node pointer. -/
def numNodes {α : Type} : Tree α → Nat
  | Tree.nil => 0
  | Tree.node l _ r => numNodes l + 1 + numNodes r

/-- The values below a node pointer, left subtree first, then the node, then the right subtree. -/
def inorder {α : Type} : Tree α → List α
  | Tree.nil => []
  | Tree.node l x r => inorder l ++ x :: inorder r

/-- Every value stored below the pointer satisfies `p`. -/
def Tree.All {α : Type} (p : α → Prop) : Tree α → Prop
  | Tree.nil => True
  | Tree.node l x r => p x ∧ Tree.All p l ∧ Tree.All p r

/-- The BST ordering invariant: at every node, all values of the left subtree are strictly
smaller and all values of the right subtree strictly greater than the node's value. -/
def isBST {α : Type} [LinearOrder α] : Tree α → Prop
  | Tree.nil => True
  | Tree.node l x r => Tree.All (fun y => y < x) l ∧ Tree.All (fun y => x < y) r ∧ isBST l ∧ isBST r

instance Tree.decAll {α : Type} (p : α → Prop) [DecidablePred p] : (t : Tree α) → Decidable (Tree.All p t)
  | Tree.nil => isTrue trivial
  | Tree.node l x r =>
    have : Decidable (Tree.All p l) := Tree.decAll p l
    have : Decidable (Tree.All p r) := Tree.decAll p r
    inferInstanceAs (Decidable (p x ∧ Tree.All p l ∧ Tree.All p r))

instance decIsBST {α : Type} [LinearOrder α] : (t : Tree α) → Decidable (isBST t)
  | Tree.nil => isTrue trivial
  | Tree.node l x r =>
    have : Decidable (isBST l) := decIsBST l
    have : Decidable (isBST r) := decIsBST r
    inferInstanceAs (Decidable (Tree.All (fun y => y < x) l ∧ Tree.All (fun y => x < y) r ∧ isBST l ∧ isBST r))

/-! ## Private helpers of the class -/

/-- The helper `find_node(node, value)`: the loop descends left on `value < node->_value`, right on
`value > node->_value`, and returns the node otherwise; `nullptr` when it falls off. -/
def find_node {α : Type} [LinearOrder α] : Tree α → α → Tree α
  | Tree.nil, _ => Tree.nil
  | Tree.node l x r, value =>
    if value < x then find_node l value
    else if value > x then find_node r value
    else Tree.node l x r

/-- The helper `min_node(node)`: `while (node && node->_left) node = node->_left; return node;`. -/
def min_node {α : Type} : Tree α → Tree α
  | Tree.nil => Tree.nil
  | Tree.node l x r =>
    match l with
    | Tree.nil => Tree.node l x r
    | Tree.node _ _ _ => min_node l

/-- The helper `max_node(node)`: `while (node && node->_right) node = node->_right; return node;`. -/
def max_node {α : Type} : Tree α → Tree α
  | Tree.nil => Tree.nil
  | Tree.node l x r =>
    match r with
    | Tree.nil => Tree.node l x r
    | Tree.node _ _ _ => max_node r

/-- The private `remove(Node*& node, const _Ty& value)`, as a procedure on the slot `node`
and the counter `_tree_size`: the result is the new content of the slot and the new counter.

In the two-children branch the node's value is overwritten with the successor's value, the
recursive call removes the successor from `node->_right` (and decrements the counter there),
and the statement `--_tree_size` after the branches then runs for this frame as well.
`min_node` of a non-null pointer is non-null, so the `Tree.nil` alternative for `succ` is
never taken (the source dereferences `succ` unconditionally); it leaves the slot as it is. -/
def remove_node {α : Type} [LinearOrder α] : Tree α → α → Nat → Tree α × Nat
  | Tree.nil, _, sz => (Tree.nil, sz)
  | Tree.node l x r, value, sz =>
    if value < x then
      let res := remove_node l value sz
      (Tree.node res.1 x r, res.2)
    else if value > x then
      let res := remove_node r value sz
      (Tree.node l x res.1, res.2)
    else
      match l, r with
      | Tree.nil, _ => (r, size_decr sz)
      | Tree.node _ _ _, Tree.nil => (l, size_decr sz)
      | Tree.node _ _ _, Tree.node _ _ _ =>
        match min_node r with
        | Tree.nil => (Tree.node l x r, size_decr sz)
        | Tree.node _ s _ =>
          let res := remove_node r s sz
          (Tree.node l s res.1, size_decr res.2)

/-- The loop of `insert` on the slot `current`, started at a given slot: `none` is the early
`return` at an equal value, `some t` the content of the slot after `*current = new Node(..)`. -/
def insert_slot {α : Type} [LinearOrder α] : Tree α → α → Option (Tree α)
  | Tree.nil, value => some (Tree.node Tree.nil value Tree.nil)
  | Tree.node l x r, value =>
    if value < x then (insert_slot l value).map (fun l' => Tree.node l' x r)
    else if value > x then (insert_slot r value).map (fun r' => Tree.node l x r')
    else none

/-! ## Public interface -/

namespace BinarySearchTree

/-- The default constructor: `_root = nullptr`, `_tree_size = 0`. -/
def empty {α : Type} : BinarySearchTree α := { root := Tree.nil, tree_size := 0 }

/-- The member `insert(value)`: no change on a duplicate, otherwise the new node is linked and the
counter incremented. -/
def insert {α : Type} [LinearOrder α] (t : BinarySearchTree α) (value : α) : BinarySearchTree α :=
  match insert_slot t.root value with
  | none => t
  | some r => { root := r, tree_size := size_incr t.tree_size }

/-- The member `remove(value)`: `remove(_root, value)`. -/
def remove {α : Type} [LinearOrder α] (t : BinarySearchTree α) (value : α) : BinarySearchTree α :=
  let res := remove_node t.root value t.tree_size
  { root := res.1, tree_size := res.2 }

/-- The member `find(value)`: `find_node(_root, value) != nullptr`. -/
def find {α : Type} [LinearOrder α] (t : BinarySearchTree α) (value : α) : Bool :=
  !(find_node t.root value).isNull

/-- The member `size()`. -/
def size {α : Type} (t : BinarySearchTree α) : Nat := t.tree_size

/-- The member `empty()`, named `isEmpty` here: `_tree_size == 0`. -/
def isEmpty {α : Type} (t : BinarySearchTree α) : Bool := t.tree_size == 0

/-- The member `min()`: throws `std::runtime_error("Tree is empty")` when `min_node(_root)` is null. -/
def min {α : Type} (t : BinarySearchTree α) : Except String α :=
  match min_node t.root with
  | Tree.nil => Except.error "Tree is empty"
  | Tree.node _ x _ => Except.ok x

/-- The member `max()`: throws `std::runtime_error("Tree is empty")` when `max_node(_root)` is null. -/
def max {α : Type} (t : BinarySearchTree α) : Except String α :=
  match max_node t.root with
  | Tree.nil => Except.error "Tree is empty"
  | Tree.node _ x _ => Except.ok x

/-- The member `clear()`: all nodes are freed, `_root = nullptr`, `_tree_size = 0`. -/
def clear {α : Type} (_t : BinarySearchTree α) : BinarySearchTree α :=
  { root := Tree.nil, tree_size := 0 }

/-- The constructor from an initializer list: `insert` of each value in turn, starting
from the empty tree. -/
def ofList {α : Type} [LinearOrder α] (init : List α) : BinarySearchTree α :=
  init.foldl insert empty

end BinarySearchTree

/-! ## The forward iterator -/

/-- The class `Iterator`: the cursor `_current` and the explicit stack `path` (top first). -/
structure Iterator (α : Type) where
  current : Tree α
  path : List (Tree α)

/-- The helper `pushLeft(node)`: `while (node) { path.push(node); node = node->_left; }`. -/
def pushLeft {α : Type} : Tree α → List (Tree α) → List (Tree α)
  | Tree.nil, path => path
  | Tree.node l x r, path => pushLeft l (Tree.node l x r :: path)

namespace Iterator

/-- The prefix `operator++()`: with an empty stack the cursor becomes `nullptr`; otherwise the top is
popped into `_current` and the left spine of `_current->_right` is pushed.  `pushLeft` pushes
non-null pointers only, so the top of the stack is never null (the source dereferences it
unconditionally); the model drops such an entry and makes the cursor null. -/
def next {α : Type} (it : Iterator α) : Iterator α :=
  match it.path with
  | [] => { current := Tree.nil, path := [] }
  | top :: rest =>
    match top with
    | Tree.nil => { current := Tree.nil, path := rest }
    | Tree.node _ _ r => { current := top, path := pushLeft r rest }

/-- The constructor `Iterator(Node* root)`: `_current(nullptr)`, `pushLeft(root)`, `++(*this)`. -/
def ofRoot {α : Type} (root : Tree α) : Iterator α :=
  next { current := Tree.nil, path := pushLeft root [] }

/-- The dereference `operator*()`: `_current->_value`, undefined (`none`) when the cursor is null. -/
def deref {α : Type} (it : Iterator α) : Option α :=
  match it.current with
  | Tree.nil => none
  | Tree.node _ x _ => some x

/-- The comparison `operator==`: comparison of the two cursors.  Pointer equality is modelled by equality
of the designated subtrees; against the end iterator it is the test `_current == nullptr`. -/
def eq {α : Type} [DecidableEq α] (a b : Iterator α) : Bool :=
  decide (a.current = b.current)

end Iterator

namespace BinarySearchTree

/-- The member `begin()`: `iterator(_root)`. -/
def begin {α : Type} (t : BinarySearchTree α) : Iterator α := Iterator.ofRoot t.root

/-- The member `end()`: `iterator()`, that is `iterator(nullptr)`. -/
def end_ {α : Type} (_t : BinarySearchTree α) : Iterator α := Iterator.ofRoot Tree.nil

/-- The loop `for (it = first; it != last; ++it) out.push_back(*it);` run for at most `fuel`
tests of the loop condition: `some out` when the loop has ended within the fuel, `none` when
the fuel ran out (or a null cursor was dereferenced). -/
def iterate {α : Type} [DecidableEq α] : Nat → Iterator α → Iterator α → Option (List α)
  | 0, _, _ => none
  | fuel + 1, it, last =>
    if Iterator.eq it last then some []
    else
      match Iterator.deref it with
      | none => none
      | some x => (iterate fuel (Iterator.next it) last).map (fun out => x :: out)

/-- The values met by the walk from `begin()` to `end()`. -/
def traverse {α : Type} [DecidableEq α] (fuel : Nat) (t : BinarySearchTree α) : Option (List α) :=
  iterate fuel (begin t) (end_ t)

end BinarySearchTree

/-- The trees reachable from the empty tree by `insert`, `remove` and `clear` calls. -/
inductive Reachable {α : Type} [LinearOrder α] : BinarySearchTree α → Prop
  | empty : Reachable BinarySearchTree.empty
  | insert (t : BinarySearchTree α) (v : α) : Reachable t → Reachable (t.insert v)
  | remove (t : BinarySearchTree α) (v : α) : Reachable t → Reachable (t.remove v)
  | clear (t : BinarySearchTree α) : Reachable t → Reachable t.clear

/-- The values an iterator still has to produce from the entries of its stack: each entry
yields its own value and then the values of its right subtree. -/
def stackValues {α : Type} : List (Tree α) → List α
  | [] => []
  | Tree.nil :: rest => stackValues rest
  | Tree.node _ x r :: rest => x :: (inorder r ++ stackValues rest)

/-- The values an iterator has yet to yield: the one under the cursor, then those of the stack. -/
def Iterator.pending {α : Type} (it : Iterator α) : List α :=
  (Iterator.deref it).toList ++ stackValues it.path

/-! ## Height, equality, copy and move -/

/-- The private `height(Node* node)`: `0` for a null pointer, else
`1 + std::max(height(node->_left), height(node->_right))`.  The result is at most the number
of nodes, which for a tree held in memory is below `SIZE_MOD`, so the `std::size_t` sum does
not wrap and is modelled by the sum in `Nat`. -/
def height {α : Type} : Tree α → Nat
  | Tree.nil => 0
  | Tree.node l _ r => 1 + Nat.max (height l) (height r)

/-- The recursive lambda `equal` of `operator==`: two null pointers are equal, a null and a
non-null pointer are not, two nodes are equal when their values are not different and their
left and their right subtrees are equal. -/
def equal {α : Type} [DecidableEq α] : Tree α → Tree α → Bool
  | Tree.nil, Tree.nil => true
  | Tree.nil, Tree.node _ _ _ => false
  | Tree.node _ _ _, Tree.nil => false
  | Tree.node la a ra, Tree.node lb b rb =>
    if a ≠ b then false else equal la lb && equal ra rb

/-- The private `copy(Node* node, Node* parent)` on the values: a new node with the same value
whose children are the copies of the children (the `parent` argument only fills the
`_parent` field, see `pcopy`). -/
def copy {α : Type} : Tree α → Tree α
  | Tree.nil => Tree.nil
  | Tree.node l x r => Tree.node (copy l) x (copy r)

namespace BinarySearchTree

/-- The member `height()`: `height(_root)`. -/
def height {α : Type} (t : BinarySearchTree α) : Nat := BST.height t.root

/-- The free `operator==`: `lhs.size() == rhs.size() && equal(lhs._root, rhs._root)`. -/
def eq {α : Type} [DecidableEq α] (lhs rhs : BinarySearchTree α) : Bool :=
  lhs.size == rhs.size && equal lhs.root rhs.root

/-- The free `operator!=`: `!(lhs == rhs)`. -/
def ne {α : Type} [DecidableEq α] (lhs rhs : BinarySearchTree α) : Bool :=
  !(eq lhs rhs)

/-- The copy constructor: `_root = copy(other._root, nullptr); _tree_size = other._tree_size;`. -/
def copy_ctor {α : Type} (other : BinarySearchTree α) : BinarySearchTree α :=
  { root := copy other.root, tree_size := other.tree_size }

/-- The copy assignment `operator=(const BinarySearchTree& other)`; `distinct` is the test
`this != &other`.  On a distinct source the object is cleared and then filled like the copy
constructor does; on itself it is left as it is. -/
def copy_assign {α : Type} (self other : BinarySearchTree α) (distinct : Bool) :
    BinarySearchTree α :=
  if distinct then { root := copy other.root, tree_size := other.tree_size }
  else self

/-- The move constructor: `_root(std::exchange(other._root, nullptr))`,
`_tree_size(std::exchange(other._tree_size, 0))`.  The result is the new object and the
source as it is left behind. -/
def move_ctor {α : Type} (other : BinarySearchTree α) : BinarySearchTree α × BinarySearchTree α :=
  ({ root := other.root, tree_size := other.tree_size }, { root := Tree.nil, tree_size := 0 })

/-- The move assignment `operator=(BinarySearchTree&& other)`; `distinct` is the test
`this != &other`.  On a distinct source the object is cleared and takes root and counter of
the source, which is left with a null root and counter 0; on itself nothing happens.  The
result is the object and the source after the call. -/
def move_assign {α : Type} (self other : BinarySearchTree α) (distinct : Bool) :
    BinarySearchTree α × BinarySearchTree α :=
  if distinct then
    ({ root := other.root, tree_size := other.tree_size }, { root := Tree.nil, tree_size := 0 })
  else (self, other)

end BinarySearchTree

/-! ## The nodes with their identity and their `_parent` field

For the parent back-references the nodes are modelled once more, now with the address of
each node and the content of its `_parent` field (`none` is `nullptr`).  Addresses are
handed out by `new` from a counter and never used again, so the address of a freed node
designates no live node. -/

/-- A `Node*` with identities: `nil` is `nullptr`, `node addr parent l x r` points to the node
at `addr` with fields `_parent = parent`, `_left = l`, `_value = x`, `_right = r`. -/
inductive PTree (α : Type) where
  | nil : PTree α
  | node (addr : Nat) (parent : Option Nat) (left : PTree α) (value : α) (right : PTree α) :
      PTree α
  deriving DecidableEq

/-- The tree of values under a pointer, identities and `_parent` fields forgotten. -/
def PTree.erase {α : Type} : PTree α → Tree α
  | PTree.nil => Tree.nil
  | PTree.node _ _ l x r => Tree.node (PTree.erase l) x (PTree.erase r)

/-- The addresses of the nodes below a pointer, in in-order. -/
def PTree.addrs {α : Type} : PTree α → List Nat
  | PTree.nil => []
  | PTree.node a _ l _ r => PTree.addrs l ++ a :: PTree.addrs r

/-- The content of the `_parent` field of the node a pointer designates. -/
def PTree.parentField {α : Type} : PTree α → Option Nat
  | PTree.nil => none
  | PTree.node _ p _ _ _ => p

/-- Parent consistency below a slot: the node held by the slot has `expected` in its `_parent`
field (the address of the node owning the slot, `none` for the root slot), and so on for the
slots of its children. -/
def parentsOK {α : Type} : Option Nat → PTree α → Prop
  | _, PTree.nil => True
  | expected, PTree.node a p l _ r =>
    p = expected ∧ parentsOK (some a) l ∧ parentsOK (some a) r

instance decParentsOK {α : Type} : (e : Option Nat) → (t : PTree α) → Decidable (parentsOK e t)
  | _, PTree.nil => isTrue trivial
  | e, PTree.node a p l _ r =>
    have : Decidable (parentsOK (some a) l) := decParentsOK (some a) l
    have : Decidable (parentsOK (some a) r) := decParentsOK (some a) r
    inferInstanceAs (Decidable (p = e ∧ parentsOK (some a) l ∧ parentsOK (some a) r))

/-- The helper `min_node` on nodes with identities. -/
def pmin_node {α : Type} : PTree α → PTree α
  | PTree.nil => PTree.nil
  | PTree.node a p l x r =>
    match l with
    | PTree.nil => PTree.node a p l x r
    | PTree.node _ _ _ _ _ => pmin_node l

/-- The loop of `insert` on nodes with identities: `parent` is the local of that name (the
node visited last, `nullptr` at the root slot), `fresh` the address `new` returns.  The new
node is `Node(value, parent)`; no field of an existing node other than the slot is written. -/
def pinsert_slot {α : Type} [LinearOrder α] : PTree α → Option Nat → α → Nat → Option (PTree α)
  | PTree.nil, parent, value, fresh => some (PTree.node fresh parent PTree.nil value PTree.nil)
  | PTree.node a p l x r, _, value, fresh =>
    if value < x then (pinsert_slot l (some a) value fresh).map (fun l' => PTree.node a p l' x r)
    else if value > x then
      (pinsert_slot r (some a) value fresh).map (fun r' => PTree.node a p l x r')
    else none

/-- The private `remove(Node*& node, const _Ty& value)` on nodes with identities.  In the
branches `node = node->_right` and `node = node->_left` the child is put into the slot as it
is: its `_parent` field is not written.  In the two-children branch only `_value` of the
node and the slot `node->_right` are written. -/
def premove_node {α : Type} [LinearOrder α] : PTree α → α → Nat → PTree α × Nat
  | PTree.nil, _, sz => (PTree.nil, sz)
  | PTree.node a p l x r, value, sz =>
    if value < x then
      let res := premove_node l value sz
      (PTree.node a p res.1 x r, res.2)
    else if value > x then
      let res := premove_node r value sz
      (PTree.node a p l x res.1, res.2)
    else
      match l, r with
      | PTree.nil, _ => (r, size_decr sz)
      | PTree.node _ _ _ _ _, PTree.nil => (l, size_decr sz)
      | PTree.node _ _ _ _ _, PTree.node _ _ _ _ _ =>
        match pmin_node r with
        | PTree.nil => (PTree.node a p l x r, size_decr sz)
        | PTree.node _ _ _ s _ =>
          let res := premove_node r s sz
          (PTree.node a p l s res.1, size_decr res.2)

/-- The private `copy(Node* node, Node* parent)` on nodes with identities, with the counter
of `new`: the new node gets the next address and `parent` in its `_parent` field, then the
left and the right subtree are copied with the new node as their parent. -/
def pcopy {α : Type} : PTree α → Option Nat → Nat → PTree α × Nat
  | PTree.nil, _, fresh => (PTree.nil, fresh)
  | PTree.node _ _ l x r, parent, fresh =>
    let resl := pcopy l (some fresh) (fresh + 1)
    let resr := pcopy r (some fresh) resl.2
    (PTree.node fresh parent resl.1 x resr.1, resr.2)

/-- A tree object on nodes with identities. -/
structure PBinarySearchTree (α : Type) where
  root : PTree α
  tree_size : Nat
  deriving DecidableEq

namespace PBinarySearchTree

/-- The default constructor. -/
def empty {α : Type} : PBinarySearchTree α := { root := PTree.nil, tree_size := 0 }

/-- The member `insert(value)` on nodes with identities; `fresh` is the counter of `new`
before the call, the second component the counter after it. -/
def insert {α : Type} [LinearOrder α] (t : PBinarySearchTree α) (value : α) (fresh : Nat) :
    PBinarySearchTree α × Nat :=
  match pinsert_slot t.root none value fresh with
  | none => (t, fresh)
  | some r => ({ root := r, tree_size := size_incr t.tree_size }, fresh + 1)

/-- The member `remove(value)` on nodes with identities. -/
def remove {α : Type} [LinearOrder α] (t : PBinarySearchTree α) (value : α) :
    PBinarySearchTree α :=
  let res := premove_node t.root value t.tree_size
  { root := res.1, tree_size := res.2 }

/-- The copy constructor on nodes with identities: `copy(other._root, nullptr)`; `fresh` is
the counter of `new` before the call, the second component the counter after it. -/
def copy_ctor {α : Type} (other : PBinarySearchTree α) (fresh : Nat) :
    PBinarySearchTree α × Nat :=
  let res := pcopy other.root none fresh
  ({ root := res.1, tree_size := other.tree_size }, res.2)

/-- The tree object on values. -/
def erase {α : Type} (t : PBinarySearchTree α) : BinarySearchTree α :=
  { root := PTree.erase t.root, tree_size := t.tree_size }

/-- The constructor from an initializer list on nodes with identities, in a program whose
counter of `new` is at 0: `insert` of each value in turn. -/
def ofList {α : Type} [LinearOrder α] (init : List α) : PBinarySearchTree α × Nat :=
  init.foldl (fun st v => insert st.1 v st.2) (empty, 0)

end PBinarySearchTree

/-- The trees with identities, each with the counter of `new`, reachable from the empty tree
by `insert`, `remove` and copy construction. -/
inductive PReachable {α : Type} [LinearOrder α] : PBinarySearchTree α → Nat → Prop
  | empty (n : Nat) : PReachable PBinarySearchTree.empty n
  | insert (t : PBinarySearchTree α) (n : Nat) (v : α) :
      PReachable t n → PReachable (t.insert v n).1 (t.insert v n).2
  | remove (t : PBinarySearchTree α) (n : Nat) (v : α) :
      PReachable t n → PReachable (t.remove v) n
  | copy (t : PBinarySearchTree α) (n : Nat) :
      PReachable t n → PReachable (t.copy_ctor n).1 (t.copy_ctor n).2

/-! ## Auxiliary definitions for the proofs -/

/-- The nodes below a node pointer in in-order: left subtree, the node, right subtree. -/
def inorderNodes {α : Type} : Tree α → List (Tree α)
  | Tree.nil => []
  | Tree.node l x r => inorderNodes l ++ Tree.node l x r :: inorderNodes r

/-- The nodes an iterator still has to visit from the entries of its stack. -/
def stackNodes {α : Type} : List (Tree α) → List (Tree α)
  | [] => []
  | Tree.nil :: rest => stackNodes rest
  | Tree.node l x r :: rest => Tree.node l x r :: (inorderNodes r ++ stackNodes rest)

/-- The nodes an iterator has yet to visit: the one under the cursor, then those of the stack. -/
def Iterator.pendingNodes {α : Type} (it : Iterator α) : List (Tree α) :=
  match it.current with
  | Tree.nil => stackNodes it.path
  | Tree.node l x r => Tree.node l x r :: stackNodes it.path

/-- The linear chain to the right that holds the values of a list in their order. -/
def chainRight {α : Type} : List α → Tree α
  | [] => Tree.nil
  | x :: xs => Tree.node Tree.nil x (chainRight xs)

/-- The linear chain to the left that holds the values of a list in their order. -/
def chainLeft {α : Type} : List α → Tree α
  | [] => Tree.nil
  | x :: xs => Tree.node (chainLeft xs) x Tree.nil

/-! ## Basic facts on the observations -/

section Lemmas

variable {α : Type}

theorem all_iff_forall_mem (p : α → Prop) (t : Tree α) :
    Tree.All p t ↔ ∀ y ∈ inorder t, p y := by
  induction t with
  | nil => simp [Tree.All, inorder]
  | node l x r ihl ihr =>
    simp only [Tree.All, inorder, List.mem_append, List.mem_cons, ihl, ihr]
    constructor
    · rintro ⟨hx, hl, hr⟩ y (hy | rfl | hy)
      exacts [hl y hy, hx, hr y hy]
    · intro h
      exact ⟨h x (Or.inr (Or.inl rfl)), fun y hy => h y (Or.inl hy),
        fun y hy => h y (Or.inr (Or.inr hy))⟩

theorem length_inorder (t : Tree α) : (inorder t).length = numNodes t := by
  induction t with
  | nil => rfl
  | node l x r ihl ihr => simp [inorder, numNodes, ihl, ihr]; omega

variable [LinearOrder α]

theorem isBST_iff_sorted (t : Tree α) : isBST t ↔ (inorder t).Sorted (fun a b => a < b) := by
  induction t with
  | nil => simp [isBST, inorder]
  | node l x r ihl ihr =>
    simp only [isBST, inorder, List.Sorted, List.pairwise_append, List.pairwise_cons,
      all_iff_forall_mem, List.mem_cons]
    rw [ihl, ihr]
    simp only [List.Sorted]
    constructor
    · rintro ⟨hl, hr, sl, sr⟩
      refine ⟨sl, ⟨hr, sr⟩, ?_⟩
      rintro a ha b (rfl | hb)
      · exact hl a ha
      · exact lt_trans (hl a ha) (hr b hb)
    · rintro ⟨sl, ⟨hr, sr⟩, hlr⟩
      exact ⟨fun a ha => hlr a ha x (Or.inl rfl), hr, sl, sr⟩

theorem isBST_nodup {t : Tree α} (h : isBST t) : (inorder t).Nodup :=
  List.Sorted.nodup ((isBST_iff_sorted t).1 h)

/-! ## Facts on `insert` -/

theorem insert_slot_mem {t t' : Tree α} {v : α} (h : insert_slot t v = some t') (y : α) :
    y ∈ inorder t' ↔ y = v ∨ y ∈ inorder t := by
  induction t generalizing t' with
  | nil =>
    simp only [insert_slot, Option.some.injEq] at h
    subst h
    simp [inorder]
  | node l x r ihl ihr =>
    simp only [insert_slot] at h
    split_ifs at h with h1 h2
    · obtain ⟨l', hl', rfl⟩ := Option.map_eq_some'.1 h
      simp only [inorder, List.mem_append, List.mem_cons, ihl hl']
      tauto
    · obtain ⟨r', hr', rfl⟩ := Option.map_eq_some'.1 h
      simp only [inorder, List.mem_append, List.mem_cons, ihr hr']
      tauto

theorem insert_slot_none_mem {t : Tree α} {v : α} (h : insert_slot t v = none) :
    v ∈ inorder t := by
  induction t with
  | nil => simp [insert_slot] at h
  | node l x r ihl ihr =>
    simp only [insert_slot] at h
    simp only [inorder, List.mem_append, List.mem_cons]
    split_ifs at h with h1 h2
    · exact Or.inl (ihl (Option.map_eq_none'.1 h))
    · exact Or.inr (Or.inr (ihr (Option.map_eq_none'.1 h)))
    · exact Or.inr (Or.inl (le_antisymm (not_lt.1 h2) (not_lt.1 h1)))

theorem insert_slot_numNodes {t t' : Tree α} {v : α} (h : insert_slot t v = some t') :
    numNodes t' = numNodes t + 1 := by
  induction t generalizing t' with
  | nil =>
    simp only [insert_slot, Option.some.injEq] at h
    subst h
    simp [numNodes]
  | node l x r ihl ihr =>
    simp only [insert_slot] at h
    split_ifs at h with h1 h2
    · obtain ⟨l', hl', rfl⟩ := Option.map_eq_some'.1 h
      simp only [numNodes, ihl hl']
      omega
    · obtain ⟨r', hr', rfl⟩ := Option.map_eq_some'.1 h
      simp only [numNodes, ihr hr']
      omega

theorem insert_slot_isBST {t t' : Tree α} {v : α} (hb : isBST t)
    (h : insert_slot t v = some t') : isBST t' := by
  induction t generalizing t' with
  | nil =>
    simp only [insert_slot, Option.some.injEq] at h
    subst h
    simp [isBST, Tree.All]
  | node l x r ihl ihr =>
    obtain ⟨hl, hr, bl, br⟩ := hb
    simp only [insert_slot] at h
    split_ifs at h with h1 h2
    · obtain ⟨l', hl', rfl⟩ := Option.map_eq_some'.1 h
      refine ⟨?_, hr, ihl bl hl', br⟩
      rw [all_iff_forall_mem] at hl ⊢
      intro y hy
      rcases (insert_slot_mem hl' y).1 hy with rfl | hy
      · exact h1
      · exact hl y hy
    · obtain ⟨r', hr', rfl⟩ := Option.map_eq_some'.1 h
      refine ⟨hl, ?_, bl, ihr br hr'⟩
      rw [all_iff_forall_mem] at hr ⊢
      intro y hy
      rcases (insert_slot_mem hr' y).1 hy with rfl | hy
      · exact h2
      · exact hr y hy

theorem insert_slot_of_mem {t : Tree α} {v : α} (hb : isBST t) (hv : v ∈ inorder t) :
    insert_slot t v = none := by
  induction t with
  | nil => simp [inorder] at hv
  | node l x r ihl ihr =>
    obtain ⟨hl, hr, bl, br⟩ := hb
    rw [all_iff_forall_mem] at hl hr
    simp only [inorder, List.mem_append, List.mem_cons] at hv
    simp only [insert_slot]
    split_ifs with h1 h2
    · rcases hv with hv | rfl | hv
      · simp [ihl bl hv]
      · exact absurd h1 (lt_irrefl _)
      · exact absurd (lt_trans h1 (hr v hv)) (lt_irrefl _)
    · rcases hv with hv | rfl | hv
      · exact absurd (lt_trans (hl v hv) h2) (lt_irrefl _)
      · exact absurd h2 (lt_irrefl _)
      · simp [ihr br hv]
    · rfl

/-! ## Facts on `find` -/

/-- The search of `find_node` and the descent of `insert` follow the same path: `find_node`
returns null exactly when `insert` reaches an empty slot. -/
theorem find_node_isNull_eq (t : Tree α) (v : α) :
    (find_node t v).isNull = (insert_slot t v).isSome := by
  induction t with
  | nil => rfl
  | node l x r ihl ihr =>
    simp only [find_node, insert_slot]
    split_ifs with h1 h2
    · simp [ihl]
    · simp [ihr]
    · rfl

theorem find_node_isNull_iff {t : Tree α} (hb : isBST t) (v : α) :
    (find_node t v).isNull = false ↔ v ∈ inorder t := by
  rw [find_node_isNull_eq]
  constructor
  · intro h
    apply insert_slot_none_mem
    cases hs : insert_slot t v with
    | none => rfl
    | some t' => simp [hs] at h
  · intro h
    simp [insert_slot_of_mem hb h]

theorem find_node_insert_slot_self {t t' : Tree α} {v : α} (h : insert_slot t v = some t') :
    (find_node t' v).isNull = false := by
  induction t generalizing t' with
  | nil =>
    simp only [insert_slot, Option.some.injEq] at h
    subst h
    simp [find_node, Tree.isNull]
  | node l x r ihl ihr =>
    simp only [insert_slot] at h
    split_ifs at h with h1 h2
    · obtain ⟨l', hl', rfl⟩ := Option.map_eq_some'.1 h
      simp [find_node, h1, ihl hl']
    · obtain ⟨r', hr', rfl⟩ := Option.map_eq_some'.1 h
      simp [find_node, h1, h2, ihr hr']

theorem find_node_insert_slot_other {t t' : Tree α} {v w : α} (h : insert_slot t v = some t')
    (hw : w ≠ v) : (find_node t' w).isNull = (find_node t w).isNull := by
  induction t generalizing t' with
  | nil =>
    simp only [insert_slot, Option.some.injEq] at h
    subst h
    simp only [find_node]
    split_ifs with h1 h2
    · rfl
    · rfl
    · exact absurd (le_antisymm (not_lt.1 h2) (not_lt.1 h1)) hw
  | node l x r ihl ihr =>
    simp only [insert_slot] at h
    split_ifs at h with h1 h2
    · obtain ⟨l', hl', rfl⟩ := Option.map_eq_some'.1 h
      simp only [find_node]
      split_ifs
      · exact ihl hl'
      · rfl
      · rfl
    · obtain ⟨r', hr', rfl⟩ := Option.map_eq_some'.1 h
      simp only [find_node]
      split_ifs
      · rfl
      · exact ihr hr'
      · rfl

/-! ## Facts on `remove` -/

omit [LinearOrder α] in
theorem min_node_inorder (l : Tree α) (x : α) (r : Tree α) :
    ∃ s rr rest, min_node (Tree.node l x r) = Tree.node Tree.nil s rr ∧
      inorder (Tree.node l x r) = s :: rest := by
  induction l generalizing x r with
  | nil => exact ⟨x, r, inorder r, rfl, rfl⟩
  | node ll lx lr ihl _ =>
    obtain ⟨s, rr, rest, h1, h2⟩ := ihl lx lr
    refine ⟨s, rr, rest ++ x :: inorder r, ?_, ?_⟩
    · simpa [min_node] using h1
    · rw [inorder, h2]
      rfl

theorem filter_ne_eq_self {xs : List α} {v : α} (h : ∀ y ∈ xs, y ≠ v) :
    xs.filter (fun y => y != v) = xs :=
  List.filter_eq_self.2 (fun y hy => by simpa using h y hy)

theorem remove_node_inorder {t : Tree α} (hb : isBST t) (v : α) (sz : Nat) :
    inorder (remove_node t v sz).1 = (inorder t).filter (fun y => y != v) := by
  induction t generalizing v sz with
  | nil => simp [remove_node, inorder]
  | node l x r ihl ihr =>
    obtain ⟨hl, hr, bl, br⟩ := hb
    rw [all_iff_forall_mem] at hl hr
    simp only [remove_node]
    split_ifs with h1 h2
    · have hx : (x != v) = true := by simpa using h1.ne'
      have hr' : ∀ y ∈ inorder r, y ≠ v := fun y hy => (lt_trans h1 (hr y hy)).ne'
      simp only [inorder, ihl bl, List.filter_append, List.filter_cons, hx, if_true,
        filter_ne_eq_self hr']
    · have hx : (x != v) = true := by simpa using h2.ne
      have hl' : ∀ y ∈ inorder l, y ≠ v := fun y hy => (lt_trans (hl y hy) h2).ne
      simp only [inorder, ihr br, List.filter_append, List.filter_cons, hx, if_true,
        filter_ne_eq_self hl']
    · have hvx : v = x := le_antisymm (not_lt.1 h2) (not_lt.1 h1)
      subst hvx
      have hl' : ∀ y ∈ inorder l, y ≠ v := fun y hy => (hl y hy).ne
      have hr' : ∀ y ∈ inorder r, y ≠ v := fun y hy => (hr y hy).ne'
      have hv : (v != v) = false := by simp
      have key : (inorder (Tree.node l v r)).filter (fun y => y != v) = inorder l ++ inorder r := by
        simp only [inorder, List.filter_append, List.filter_cons, hv, filter_ne_eq_self hl',
          filter_ne_eq_self hr']
        simp
      rw [key]
      split
      · simp [inorder]
      · simp [inorder]
      · rename_i ll lx lr rl rx rr
        obtain ⟨s, srr, rest, hm, hin⟩ := min_node_inorder rl rx rr
        rw [hm]
        simp only [inorder] at hin ⊢
        rw [ihr br s sz]
        simp only [inorder]
        rw [hin]
        have hs : (inorder (Tree.node rl rx rr)).Sorted (fun a b => a < b) :=
          (isBST_iff_sorted _).1 br
        simp only [inorder] at hs
        rw [hin] at hs
        have hrest : ∀ y ∈ rest, y ≠ s := fun y hy => (List.rel_of_sorted_cons hs y hy).ne'
        simp [List.filter_cons, filter_ne_eq_self hrest]

theorem remove_node_inorder_erase {t : Tree α} (hb : isBST t) (v : α) (sz : Nat) :
    inorder (remove_node t v sz).1 = (inorder t).erase v := by
  rw [remove_node_inorder hb, List.Nodup.erase_eq_filter (isBST_nodup hb)]

theorem remove_node_isBST {t : Tree α} (hb : isBST t) (v : α) (sz : Nat) :
    isBST (remove_node t v sz).1 := by
  rw [isBST_iff_sorted, remove_node_inorder hb]
  exact List.Pairwise.filter _ ((isBST_iff_sorted t).1 hb)

theorem remove_node_absent {t : Tree α} {v : α} (hv : v ∉ inorder t) (sz : Nat) :
    remove_node t v sz = (t, sz) := by
  induction t with
  | nil => rfl
  | node l x r ihl ihr =>
    simp only [inorder, List.mem_append, List.mem_cons, not_or] at hv
    obtain ⟨hvl, hvx, hvr⟩ := hv
    simp only [remove_node]
    split_ifs with h1 h2
    · rw [ihl hvl]
    · rw [ihr hvr]
    · exact absurd (le_antisymm (not_lt.1 h2) (not_lt.1 h1)) hvx

/-! ## Facts on the iterator -/

omit [LinearOrder α] in
theorem stackValues_pushLeft (t : Tree α) (p : List (Tree α)) :
    stackValues (pushLeft t p) = inorder t ++ stackValues p := by
  induction t generalizing p with
  | nil => rfl
  | node l x r ihl _ =>
    rw [pushLeft, ihl]
    simp [stackValues, inorder]

omit [LinearOrder α] in
theorem pushLeft_not_null (t : Tree α) (p : List (Tree α))
    (hp : ∀ n ∈ p, Tree.isNull n = false) : ∀ n ∈ pushLeft t p, Tree.isNull n = false := by
  induction t generalizing p with
  | nil => exact hp
  | node l x r ihl _ =>
    rw [pushLeft]
    apply ihl
    intro n hn
    rcases List.mem_cons.1 hn with rfl | hn
    · rfl
    · exact hp n hn

omit [LinearOrder α] in
theorem next_spec (it : Iterator α) (hp : ∀ n ∈ it.path, Tree.isNull n = false) :
    (∀ n ∈ (Iterator.next it).path, Tree.isNull n = false) ∧
    ((Iterator.next it).current = Tree.nil → (Iterator.next it).path = []) ∧
    Iterator.pending (Iterator.next it) = stackValues it.path := by
  obtain ⟨c, p⟩ := it
  cases p with
  | nil => simp [Iterator.next, Iterator.pending, Iterator.deref, stackValues]
  | cons top rest =>
    cases top with
    | nil => simpa [Tree.isNull] using hp Tree.nil
    | node l x r =>
      refine ⟨?_, ?_, ?_⟩
      · apply pushLeft_not_null
        intro n hn
        exact hp n (List.mem_cons_of_mem _ hn)
      · intro h
        simp [Iterator.next] at h
      · simp [Iterator.next, Iterator.pending, Iterator.deref, stackValues, stackValues_pushLeft]

omit [LinearOrder α] in
theorem iterate_pending [DecidableEq α] (fuel : Nat) (it : Iterator α)
    (hp : ∀ n ∈ it.path, Tree.isNull n = false) (hc : it.current = Tree.nil → it.path = [])
    (hf : (Iterator.pending it).length < fuel) :
    BinarySearchTree.iterate fuel it { current := Tree.nil, path := [] }
      = some (Iterator.pending it) := by
  induction fuel generalizing it with
  | zero => omega
  | succ fuel ih =>
    obtain ⟨hp', hc', hpend⟩ := next_spec it hp
    obtain ⟨c, p⟩ := it
    cases c with
    | nil =>
      have : p = [] := hc rfl
      subst this
      simp [BinarySearchTree.iterate, Iterator.eq, Iterator.pending, Iterator.deref, stackValues]
    | node l x r =>
      have hlen : (Iterator.pending (Iterator.next { current := Tree.node l x r, path := p })).length
          < fuel := by
        rw [hpend]
        simp [Iterator.pending, Iterator.deref] at hf
        simpa using hf
      rw [BinarySearchTree.iterate]
      simp only [Iterator.eq, Iterator.deref]
      rw [ih _ hp' hc' hlen, hpend]
      simp [Iterator.pending, Iterator.deref]

omit [LinearOrder α] in
/-- The walk from `begin()` to `end()` ends within `numNodes + 1` tests of the loop condition
and yields the in-order sequence of the tree. -/
theorem traverse_eq_inorder [DecidableEq α] (t : BinarySearchTree α) (fuel : Nat)
    (hf : numNodes t.root < fuel) :
    BinarySearchTree.traverse fuel t = some (inorder t.root) := by
  have h0 : ∀ n ∈ pushLeft t.root [], Tree.isNull n = false :=
    pushLeft_not_null t.root [] (fun n hn => by simp at hn)
  obtain ⟨hp, hc, hpend⟩ :=
    next_spec { current := Tree.nil, path := pushLeft t.root [] } h0
  have hpend' : Iterator.pending (Iterator.ofRoot t.root) = inorder t.root := by
    rw [Iterator.ofRoot, hpend]
    simp [stackValues_pushLeft, stackValues]
  have hend : BinarySearchTree.end_ t = { current := Tree.nil, path := [] } := rfl
  have hlen : (Iterator.pending (Iterator.ofRoot t.root)).length < fuel := by
    rw [hpend', length_inorder]
    exact hf
  rw [BinarySearchTree.traverse, hend, BinarySearchTree.begin,
    iterate_pending fuel (Iterator.ofRoot t.root) hp hc hlen, hpend']

/-! ## Facts on the public interface -/

theorem insert_root_mem (t : BinarySearchTree α) (v y : α) :
    y ∈ inorder (t.insert v).root ↔ y = v ∨ y ∈ inorder t.root := by
  unfold BinarySearchTree.insert
  cases h : insert_slot t.root v with
  | none =>
    have := insert_slot_none_mem h
    constructor
    · exact Or.inr
    · rintro (rfl | hy)
      · exact this
      · exact hy
  | some r => exact insert_slot_mem h y

theorem insert_root_isBST {t : BinarySearchTree α} (hb : isBST t.root) (v : α) :
    isBST (t.insert v).root := by
  unfold BinarySearchTree.insert
  cases h : insert_slot t.root v with
  | none => exact hb
  | some r => exact insert_slot_isBST hb h

theorem insert_root_numNodes_le (t : BinarySearchTree α) (v : α) :
    numNodes (t.insert v).root ≤ numNodes t.root + 1 := by
  unfold BinarySearchTree.insert
  cases h : insert_slot t.root v with
  | none => exact Nat.le_succ _
  | some r => exact le_of_eq (insert_slot_numNodes h)

theorem foldl_insert_spec (vs : List α) (t : BinarySearchTree α) (hb : isBST t.root) :
    isBST (vs.foldl BinarySearchTree.insert t).root ∧
    (∀ y, y ∈ inorder (vs.foldl BinarySearchTree.insert t).root ↔ y ∈ inorder t.root ∨ y ∈ vs) ∧
    numNodes (vs.foldl BinarySearchTree.insert t).root ≤ numNodes t.root + vs.length := by
  induction vs generalizing t with
  | nil => simp [hb]
  | cons v vs ih =>
    obtain ⟨h1, h2, h3⟩ := ih (t.insert v) (insert_root_isBST hb v)
    refine ⟨h1, ?_, ?_⟩
    · intro y
      rw [List.foldl_cons, h2, insert_root_mem, List.mem_cons]
      tauto
    · have := insert_root_numNodes_le t v
      simp only [List.foldl_cons, List.length_cons]
      omega

theorem reachable_isBST {t : BinarySearchTree α} (h : Reachable t) : isBST t.root := by
  induction h with
  | empty => exact trivial
  | insert t v _ ih => exact insert_root_isBST ih v
  | remove t v _ ih => exact remove_node_isBST ih v _
  | clear t _ _ => exact trivial

omit [LinearOrder α] in
theorem min_node_isNull (t : Tree α) : (min_node t).isNull = t.isNull := by
  induction t with
  | nil => rfl
  | node l x r ihl _ =>
    cases l with
    | nil => rfl
    | node ll lx lr => simpa [min_node] using ihl

omit [LinearOrder α] in
theorem max_node_isNull (t : Tree α) : (max_node t).isNull = t.isNull := by
  induction t with
  | nil => rfl
  | node l x r _ ihr =>
    cases r with
    | nil => rfl
    | node rl rx rr => simpa [max_node] using ihr

theorem find_true_iff_mem {t : BinarySearchTree α} (hb : isBST t.root) (v : α) :
    t.find v = true ↔ v ∈ inorder t.root := by
  rw [← find_node_isNull_iff hb v, BinarySearchTree.find]
  cases (find_node t.root v).isNull <;> simp

theorem find_insert_self (t : BinarySearchTree α) (v : α) : (t.insert v).find v = true := by
  unfold BinarySearchTree.insert BinarySearchTree.find
  cases h : insert_slot t.root v with
  | none =>
    have h2 := find_node_isNull_eq t.root v
    rw [h] at h2
    simp [h2]
  | some r => simp [find_node_insert_slot_self h]

theorem find_insert_other (t : BinarySearchTree α) {v w : α} (hw : w ≠ v) :
    (t.insert v).find w = t.find w := by
  unfold BinarySearchTree.insert BinarySearchTree.find
  cases h : insert_slot t.root v with
  | none => rfl
  | some r => simp [find_node_insert_slot_other h hw]

end Lemmas

/-! ## The claims -/

section Claims

variable {α : Type} [LinearOrder α]

/-- C1: for every sequence `vs` inserted one by one into an empty tree, the walk from `begin()`
to `end()` ends (within `vs.length + 1` tests of the loop condition) and yields a strictly
ascending sequence that holds exactly the values of `vs`, each of them once. -/
theorem inorder_iteration_of_inserts (vs : List α) (fuel : Nat) (hf : vs.length < fuel) :
    ∃ out, BinarySearchTree.traverse fuel (BinarySearchTree.ofList vs) = some out ∧
      out.Sorted (fun a b => a < b) ∧ (∀ x, x ∈ out ↔ x ∈ vs) ∧ ∀ x ∈ vs, out.count x = 1 := by
  obtain ⟨hb, hm, hn⟩ := foldl_insert_spec vs BinarySearchTree.empty trivial
  have hn' : numNodes (BinarySearchTree.ofList vs).root < fuel := by
    have : numNodes (BinarySearchTree.empty : BinarySearchTree α).root = 0 := rfl
    unfold BinarySearchTree.ofList
    omega
  refine ⟨inorder (BinarySearchTree.ofList vs).root, traverse_eq_inorder _ fuel hn',
    (isBST_iff_sorted _).1 hb, ?_, ?_⟩
  · intro x
    have := hm x
    simpa [BinarySearchTree.empty, inorder] using this
  · intro x hx
    apply List.count_eq_one_of_mem (isBST_nodup hb)
    exact (hm x).2 (Or.inr hx)

/-- Witness of C1: inserting 5, 3, 8, 3, 1 gives the walk 1, 3, 5, 8 (and `size()` 4). -/
theorem inorder_iteration_of_inserts_witness :
    BinarySearchTree.traverse 6 (BinarySearchTree.ofList [5, 3, 8, 3, 1]) = some [1, 3, 5, 8] ∧
    (BinarySearchTree.ofList [5, 3, 8, 3, 1]).size = 4 ∧
    ∃ out, BinarySearchTree.traverse 6 (BinarySearchTree.ofList [5, 3, 8, 3, 1]) = some out ∧
      out.Sorted (fun a b => a < b) ∧ (∀ x, x ∈ out ↔ x ∈ [5, 3, 8, 3, 1]) ∧
      ∀ x ∈ [5, 3, 8, 3, 1], out.count x = 1 :=
  ⟨by decide, by decide, inorder_iteration_of_inserts [5, 3, 8, 3, 1] 6 (by decide)⟩

/-- C2, evaluated at its failing input: after inserting 2, 1, 3 and removing 2 (a node with
two children) the tree is reachable and has 2 nodes, yet `size()` is 1; after a further
`remove(3)` one node is left while `size()` is 0 and `empty()` is true. -/
theorem size_differs_from_node_count :
    Reachable ((BinarySearchTree.ofList [2, 1, 3]).remove 2) ∧
    numNodes ((BinarySearchTree.ofList [2, 1, 3]).remove 2).root = 2 ∧
    ((BinarySearchTree.ofList [2, 1, 3]).remove 2).size = 1 ∧
    numNodes (((BinarySearchTree.ofList [2, 1, 3]).remove 2).remove 3).root = 1 ∧
    (((BinarySearchTree.ofList [2, 1, 3]).remove 2).remove 3).size = 0 ∧
    (((BinarySearchTree.ofList [2, 1, 3]).remove 2).remove 3).isEmpty = true :=
  ⟨Reachable.remove _ 2 (Reachable.insert _ 3 (Reachable.insert _ 1
    (Reachable.insert _ 2 Reachable.empty))), by decide, by decide, by decide, by decide,
    by decide⟩

/-- C3: the empty tree satisfies the BST ordering invariant, `insert(v)` and `remove(v)`
preserve it for every `v`, and so every tree reachable through `insert`, `remove` and `clear`
satisfies it and stores no value twice. -/
theorem bst_invariant_preserved :
    isBST (BinarySearchTree.empty : BinarySearchTree α).root ∧
    (∀ (t : BinarySearchTree α) (v : α), isBST t.root →
      isBST (t.insert v).root ∧ isBST (t.remove v).root) ∧
    (∀ t : BinarySearchTree α, Reachable t → isBST t.root ∧ (inorder t.root).Nodup) :=
  ⟨trivial, fun _ v hb => ⟨insert_root_isBST hb v, remove_node_isBST hb v _⟩,
    fun _ h => ⟨reachable_isBST h, isBST_nodup (reachable_isBST h)⟩⟩

/-- Witness of C3: on the tree built from 5, 3, 8, 3, 1 the invariant holds and survives
`insert(4)` and `remove(5)`. -/
theorem bst_invariant_preserved_witness :
    isBST (BinarySearchTree.ofList [5, 3, 8, 3, 1]).root ∧
    isBST ((BinarySearchTree.ofList [5, 3, 8, 3, 1]).insert 4).root ∧
    isBST ((BinarySearchTree.ofList [5, 3, 8, 3, 1]).remove 5).root :=
  ⟨by decide, bst_invariant_preserved.2.1 (BinarySearchTree.ofList [5, 3, 8, 3, 1]) 4 (by decide) |>.1,
    bst_invariant_preserved.2.1 (BinarySearchTree.ofList [5, 3, 8, 3, 1]) 5 (by decide) |>.2⟩

/-- C4: on a tree satisfying the BST ordering invariant, the in-order sequence after
`remove(v)` is the in-order sequence before the call with `v` deleted, this is also what the
walk from `begin()` to `end()` yields afterwards, and when `v` was absent the tree is
unchanged. -/
theorem remove_inorder (t : BinarySearchTree α) (v : α) (hb : isBST t.root) :
    inorder (t.remove v).root = (inorder t.root).erase v ∧
    (∀ fuel, numNodes t.root < fuel →
      BinarySearchTree.traverse fuel (t.remove v) = some ((inorder t.root).erase v)) ∧
    (v ∉ inorder t.root → t.remove v = t) := by
  have h1 : inorder (t.remove v).root = (inorder t.root).erase v :=
    remove_node_inorder_erase hb v _
  refine ⟨h1, ?_, ?_⟩
  · intro fuel hf
    rw [← h1]
    apply traverse_eq_inorder
    rw [← length_inorder, h1]
    have := List.length_erase_le v (inorder t.root)
    rw [length_inorder] at this
    omega
  · intro hv
    unfold BinarySearchTree.remove
    rw [remove_node_absent hv]

/-- Witness of C4: `remove(5)` on the tree built from 5, 3, 8, 3, 1 leaves 1, 3, 8. -/
theorem remove_inorder_witness :
    inorder ((BinarySearchTree.ofList [5, 3, 8, 3, 1]).remove 5).root = [1, 3, 8] ∧
    inorder ((BinarySearchTree.ofList [5, 3, 8, 3, 1]).remove 5).root
      = (inorder (BinarySearchTree.ofList [5, 3, 8, 3, 1]).root).erase 5 :=
  ⟨by decide, (remove_inorder (BinarySearchTree.ofList [5, 3, 8, 3, 1]) 5 (by decide)).1⟩

/-- C5, evaluated at its failing input: the tree built from 5, 3, 8, 3, 1 satisfies the BST
ordering invariant, stores 5 in a node with two children and has `size()` 4; after
`remove(5)` three nodes are left but `size()` is 2. -/
theorem remove_two_children_size :
    isBST (BinarySearchTree.ofList [5, 3, 8, 3, 1]).root ∧
    (BinarySearchTree.ofList [5, 3, 8, 3, 1]).root
      = Tree.node (Tree.node (Tree.node Tree.nil 1 Tree.nil) 3 Tree.nil) 5
          (Tree.node Tree.nil 8 Tree.nil) ∧
    (BinarySearchTree.ofList [5, 3, 8, 3, 1]).size = 4 ∧
    numNodes ((BinarySearchTree.ofList [5, 3, 8, 3, 1]).remove 5).root = 3 ∧
    ((BinarySearchTree.ofList [5, 3, 8, 3, 1]).remove 5).size = 2 :=
  ⟨by decide, by decide, by decide, by decide, by decide⟩

/-- C6: on a tree satisfying the BST ordering invariant, `find(v)` is true exactly when `v`
occurs in the in-order sequence, that is when some node holds `v`; `find` is a total function
of the tree and returns nothing but the boolean. -/
theorem find_iff_mem (t : BinarySearchTree α) (v : α) (hb : isBST t.root) :
    t.find v = true ↔ v ∈ inorder t.root :=
  find_true_iff_mem hb v

/-- Witness of C6: 8 is found in the tree built from 5, 3, 8, 3, 1. -/
theorem find_iff_mem_witness :
    (BinarySearchTree.ofList [5, 3, 8, 3, 1]).find 8 = true ↔
      8 ∈ inorder (BinarySearchTree.ofList [5, 3, 8, 3, 1]).root :=
  find_iff_mem (BinarySearchTree.ofList [5, 3, 8, 3, 1]) 8 (by decide)

/-- C7: on a tree satisfying the BST ordering invariant, `find(v)` is false right after
`remove(v)`, for every `v`. -/
theorem find_after_remove (t : BinarySearchTree α) (v : α) (hb : isBST t.root) :
    (t.remove v).find v = false := by
  have hb' : isBST (t.remove v).root := remove_node_isBST hb v _
  have hin : inorder (t.remove v).root = (inorder t.root).filter (fun y => y != v) :=
    remove_node_inorder hb v _
  cases h : (t.remove v).find v with
  | false => rfl
  | true =>
    have hm := (find_true_iff_mem hb' v).1 h
    rw [hin] at hm
    simp at hm

/-- Witness of C7: 5, stored in a node with two children of the tree built from
5, 3, 8, 3, 1, is not found after `remove(5)`. -/
theorem find_after_remove_witness :
    (BinarySearchTree.ofList [5, 3, 8, 3, 1]).find 5 = true ∧
    ((BinarySearchTree.ofList [5, 3, 8, 3, 1]).remove 5).find 5 = false :=
  ⟨by decide, find_after_remove (BinarySearchTree.ofList [5, 3, 8, 3, 1]) 5 (by decide)⟩

/-- C8: for every tree and every `v`, `find(v)` is true right after `insert(v)`, and for every
other value `w` the result of `find(w)` is the same after `insert(v)` as before. -/
theorem find_after_insert (t : BinarySearchTree α) (v : α) :
    (t.insert v).find v = true ∧ ∀ w, w ≠ v → (t.insert v).find w = t.find w :=
  ⟨find_insert_self t v, fun _ hw => find_insert_other t hw⟩

/-- Witness of C8: after `insert(4)` on the tree built from 5, 3, 8, 3, 1 the value 4 is
found and `find(7)` is what it was. -/
theorem find_after_insert_witness :
    ((BinarySearchTree.ofList [5, 3, 8, 3, 1]).insert 4).find 4 = true ∧
    ((BinarySearchTree.ofList [5, 3, 8, 3, 1]).insert 4).find 7
      = (BinarySearchTree.ofList [5, 3, 8, 3, 1]).find 7 :=
  ⟨(find_after_insert (BinarySearchTree.ofList [5, 3, 8, 3, 1]) 4).1,
    (find_after_insert (BinarySearchTree.ofList [5, 3, 8, 3, 1]) 4).2 7 (by decide)⟩

/-- C9: on a tree satisfying the BST ordering invariant, `insert(v)` of a value already stored
returns the same tree (same shape, values and counter), and for every tree `insert(v)` twice
is `insert(v)` once; `insert` is a total function. -/
theorem insert_duplicate_noop (t : BinarySearchTree α) (v : α) :
    (isBST t.root → v ∈ inorder t.root → t.insert v = t) ∧
    (t.insert v).insert v = t.insert v := by
  refine ⟨?_, ?_⟩
  · intro hb hv
    unfold BinarySearchTree.insert
    rw [insert_slot_of_mem hb hv]
  · have key : insert_slot (t.insert v).root v = none := by
      have h1 := find_insert_self t v
      have h2 := find_node_isNull_eq (t.insert v).root v
      unfold BinarySearchTree.find at h1
      cases hs : insert_slot (t.insert v).root v with
      | none => rfl
      | some r =>
        rw [hs] at h2
        simp [h2] at h1
    conv_lhs => rw [BinarySearchTree.insert]
    rw [key]

/-- Witness of C9: a second `insert(3)` on the tree built from 5, 3, 8, 3, 1 changes nothing. -/
theorem insert_duplicate_noop_witness :
    (BinarySearchTree.ofList [5, 3, 8, 3, 1]).insert 3 = BinarySearchTree.ofList [5, 3, 8, 3, 1] :=
  (insert_duplicate_noop (BinarySearchTree.ofList [5, 3, 8, 3, 1]) 3).1 (by decide) (by decide)

end Claims

section ClaimsMinMax

variable {α : Type}

/-- C10: `min()` and `max()` fail with the error "Tree is empty" exactly when the tree has no
node; on a tree with at least one node both return a value; both fail on the freshly
constructed empty tree.  Both are functions of the tree that return only the value or the
error. -/
theorem min_max_error_iff (t : BinarySearchTree α) :
    (t.min = Except.error "Tree is empty" ↔ numNodes t.root = 0) ∧
    (t.max = Except.error "Tree is empty" ↔ numNodes t.root = 0) ∧
    (0 < numNodes t.root → ∃ a b, t.min = Except.ok a ∧ t.max = Except.ok b) ∧
    (BinarySearchTree.empty : BinarySearchTree α).min = Except.error "Tree is empty" ∧
    (BinarySearchTree.empty : BinarySearchTree α).max = Except.error "Tree is empty" := by
  obtain ⟨root, sz⟩ := t
  refine ⟨?_, ?_, ?_, rfl, rfl⟩
  · cases root with
    | nil => simp [BinarySearchTree.min, min_node, numNodes]
    | node l x r =>
      have h := min_node_isNull (Tree.node l x r)
      cases hm : min_node (Tree.node l x r) with
      | nil => simp [hm, Tree.isNull] at h
      | node ml mx mr => simp [BinarySearchTree.min, hm, numNodes]
  · cases root with
    | nil => simp [BinarySearchTree.max, max_node, numNodes]
    | node l x r =>
      have h := max_node_isNull (Tree.node l x r)
      cases hm : max_node (Tree.node l x r) with
      | nil => simp [hm, Tree.isNull] at h
      | node ml mx mr => simp [BinarySearchTree.max, hm, numNodes]
  · intro hpos
    cases root with
    | nil => simp [numNodes] at hpos
    | node l x r =>
      have h1 := min_node_isNull (Tree.node l x r)
      have h2 := max_node_isNull (Tree.node l x r)
      cases hm : min_node (Tree.node l x r) with
      | nil => simp [hm, Tree.isNull] at h1
      | node ml mx mr =>
        cases hM : max_node (Tree.node l x r) with
        | nil => simp [hM, Tree.isNull] at h2
        | node nl nx nr => exact ⟨mx, nx, by simp [BinarySearchTree.min, hm], by simp [BinarySearchTree.max, hM]⟩

/-- Witness of C10: on the one-node tree built from 7 both `min()` and `max()` return a value. -/
theorem min_max_error_iff_witness :
    ∃ a b, (BinarySearchTree.ofList [7]).min = Except.ok a ∧
      (BinarySearchTree.ofList [7]).max = Except.ok b :=
  (min_max_error_iff (BinarySearchTree.ofList [7])).2.2.1 (by decide)

end ClaimsMinMax

/-! ## Facts on `max_node` and on the cursor of the iterator -/

section LemmasWalk

variable {α : Type}

theorem max_node_inorder (l : Tree α) (x : α) (r : Tree α) :
    ∃ s ll rest, max_node (Tree.node l x r) = Tree.node ll s Tree.nil ∧
      inorder (Tree.node l x r) = rest ++ [s] := by
  induction r generalizing l x with
  | nil => exact ⟨x, l, inorder l, rfl, rfl⟩
  | node rl rx rr _ ihr =>
    obtain ⟨s, ll, rest, h1, h2⟩ := ihr rl rx
    refine ⟨s, ll, inorder l ++ x :: rest, ?_, ?_⟩
    · simpa [max_node] using h1
    · rw [inorder, h2]
      simp

theorem length_inorderNodes (t : Tree α) : (inorderNodes t).length = numNodes t := by
  induction t with
  | nil => rfl
  | node l x r ihl ihr => simp [inorderNodes, numNodes, ihl, ihr]; omega

theorem inorderNodes_not_null (t : Tree α) : ∀ n ∈ inorderNodes t, Tree.isNull n = false := by
  induction t with
  | nil => simp [inorderNodes]
  | node l x r ihl ihr =>
    intro n hn
    simp only [inorderNodes, List.mem_append, List.mem_cons] at hn
    rcases hn with hn | rfl | hn
    · exact ihl n hn
    · rfl
    · exact ihr n hn

/-- The values of the nodes in in-order are the in-order sequence of values. -/
theorem deref_inorderNodes (t : Tree α) :
    (inorderNodes t).filterMap (fun n => Iterator.deref { current := n, path := [] })
      = inorder t := by
  induction t with
  | nil => rfl
  | node l x r ihl ihr =>
    rw [inorderNodes, inorder, List.filterMap_append, List.filterMap_cons, ihl, ihr]
    rfl

theorem stackNodes_pushLeft (t : Tree α) (p : List (Tree α)) :
    stackNodes (pushLeft t p) = inorderNodes t ++ stackNodes p := by
  induction t generalizing p with
  | nil => rfl
  | node l x r ihl _ =>
    rw [pushLeft, ihl]
    simp [stackNodes, inorderNodes]

theorem next_pendingNodes (it : Iterator α) (hp : ∀ n ∈ it.path, Tree.isNull n = false) :
    Iterator.pendingNodes (Iterator.next it) = stackNodes it.path := by
  obtain ⟨c, p⟩ := it
  cases p with
  | nil => rfl
  | cons top rest =>
    cases top with
    | nil => simpa [Tree.isNull] using hp Tree.nil
    | node l x r => simp [Iterator.next, Iterator.pendingNodes, stackNodes, stackNodes_pushLeft]

/-- After `k` applications of `operator++` the cursor is the `k`-th node still to visit, or
null when there is none; the stack stays free of null pointers and is empty once the cursor
is null. -/
theorem iterate_next_spec (k : Nat) (it : Iterator α)
    (hp : ∀ n ∈ it.path, Tree.isNull n = false) (hc : it.current = Tree.nil → it.path = []) :
    (∀ n ∈ (Iterator.next^[k] it).path, Tree.isNull n = false) ∧
    ((Iterator.next^[k] it).current = Tree.nil → (Iterator.next^[k] it).path = []) ∧
    (Iterator.next^[k] it).current = (Iterator.pendingNodes it).getD k Tree.nil := by
  induction k generalizing it with
  | zero =>
    refine ⟨hp, hc, ?_⟩
    obtain ⟨c, p⟩ := it
    cases c with
    | nil =>
      have : p = [] := hc rfl
      subst this
      rfl
    | node l x r => rfl
  | succ k ih =>
    obtain ⟨hp', hc', _⟩ := next_spec it hp
    obtain ⟨h1, h2, h3⟩ := ih (Iterator.next it) hp' hc'
    rw [Function.iterate_succ_apply]
    refine ⟨h1, h2, ?_⟩
    rw [h3, next_pendingNodes it hp]
    obtain ⟨c, p⟩ := it
    cases c with
    | nil =>
      have : p = [] := hc rfl
      subst this
      simp [Iterator.pendingNodes, stackNodes]
    | node l x r => simp [Iterator.pendingNodes]

/-- Started at `Iterator(root)`, the cursor after `k` applications of `operator++` is the
`k`-th node of the tree in in-order, and null from `numNodes root` applications on. -/
theorem ofRoot_iterate_current (root : Tree α) (k : Nat) :
    (Iterator.next^[k] (Iterator.ofRoot root)).current = (inorderNodes root).getD k Tree.nil ∧
    ((Iterator.next^[k] (Iterator.ofRoot root)).current = Tree.nil →
      (Iterator.next^[k] (Iterator.ofRoot root)).path = []) := by
  have h0 : ∀ n ∈ pushLeft root [], Tree.isNull n = false :=
    pushLeft_not_null root [] (fun n hn => by simp at hn)
  obtain ⟨hp, hc, _⟩ := next_spec { current := Tree.nil, path := pushLeft root [] } h0
  have hpend : Iterator.pendingNodes (Iterator.ofRoot root) = inorderNodes root := by
    rw [Iterator.ofRoot, next_pendingNodes _ h0]
    simp [stackNodes_pushLeft, stackNodes]
  obtain ⟨_, h2, h3⟩ := iterate_next_spec k (Iterator.ofRoot root) hp hc
  rw [hpend] at h3
  exact ⟨h3, h2⟩

end LemmasWalk

/-! ## The claims on extrema and on the iterator -/

section ClaimsWalk

variable {α : Type}

/-- C11: on a tree with at least one node `min()` returns the first and `max()` the last value
of the in-order sequence; when the tree satisfies the BST ordering invariant both are stored
in the tree, `min()` is less than or equal to and `max()` greater than or equal to every
stored value. -/
theorem min_max_inorder [LinearOrder α] (t : BinarySearchTree α) (h : 0 < numNodes t.root) :
    ∃ a b, t.min = Except.ok a ∧ t.max = Except.ok b ∧
      (inorder t.root).head? = some a ∧ (inorder t.root).getLast? = some b ∧
      (isBST t.root → a ∈ inorder t.root ∧ b ∈ inorder t.root ∧
        ∀ y ∈ inorder t.root, a ≤ y ∧ y ≤ b) := by
  obtain ⟨root, sz⟩ := t
  cases root with
  | nil => simp [numNodes] at h
  | node l x r =>
    obtain ⟨a, ar, rest, hm, hin⟩ := min_node_inorder l x r
    obtain ⟨b, bl, rest', hM, hin'⟩ := max_node_inorder l x r
    refine ⟨a, b, by simp [BinarySearchTree.min, hm], by simp [BinarySearchTree.max, hM],
      by simp [hin], by simp only [hin', List.getLast?_concat], ?_⟩
    intro hb
    have hs := (isBST_iff_sorted _).1 hb
    have ha : ∀ y ∈ inorder (Tree.node l x r), a ≤ y := by
      intro y hy
      simp only at hs hy
      rw [hin] at hs hy
      rcases List.mem_cons.1 hy with rfl | hy
      · exact le_refl _
      · exact le_of_lt (List.rel_of_sorted_cons hs y hy)
    have hb' : ∀ y ∈ inorder (Tree.node l x r), y ≤ b := by
      intro y hy
      simp only at hs hy
      rw [hin'] at hs hy
      rcases List.mem_append.1 hy with hy | hy
      · exact le_of_lt ((List.pairwise_append.1 hs).2.2 y hy b (by simp))
      · simp at hy
        exact le_of_eq hy
    refine ⟨?_, ?_, fun y hy => ⟨ha y hy, hb' y hy⟩⟩
    · simp only
      rw [hin]
      exact List.mem_cons_self _ _
    · simp only
      rw [hin']
      simp

/-- Witness of C11: on the tree built from 5, 3, 8, 3, 1 `min()` is 1 and `max()` is 8. -/
theorem min_max_inorder_witness :
    (BinarySearchTree.ofList [5, 3, 8, 3, 1]).min = Except.ok 1 ∧
    (BinarySearchTree.ofList [5, 3, 8, 3, 1]).max = Except.ok 8 ∧
    ∃ a b, (BinarySearchTree.ofList [5, 3, 8, 3, 1]).min = Except.ok a ∧
      (BinarySearchTree.ofList [5, 3, 8, 3, 1]).max = Except.ok b ∧
      (inorder (BinarySearchTree.ofList [5, 3, 8, 3, 1]).root).head? = some a ∧
      (inorder (BinarySearchTree.ofList [5, 3, 8, 3, 1]).root).getLast? = some b ∧
      (isBST (BinarySearchTree.ofList [5, 3, 8, 3, 1]).root →
        a ∈ inorder (BinarySearchTree.ofList [5, 3, 8, 3, 1]).root ∧
        b ∈ inorder (BinarySearchTree.ofList [5, 3, 8, 3, 1]).root ∧
        ∀ y ∈ inorder (BinarySearchTree.ofList [5, 3, 8, 3, 1]).root, a ≤ y ∧ y ≤ b) :=
  ⟨rfl, rfl, min_max_inorder (BinarySearchTree.ofList [5, 3, 8, 3, 1]) (by decide)⟩

/-- C12, evaluated at its failing input: the tree obtained by inserting 2, 1, 3 and removing 2
is reachable and has `size()` 1, but the iterator started at `begin()` is not equal to `end()`
after one application of `operator++`; it is after two, the number of nodes.  The values on
the way are 1, 3. -/
theorem iterator_steps_differ_from_size :
    Reachable ((BinarySearchTree.ofList [2, 1, 3]).remove 2) ∧
    ((BinarySearchTree.ofList [2, 1, 3]).remove 2).size = 1 ∧
    Iterator.eq (Iterator.next ((BinarySearchTree.ofList [2, 1, 3]).remove 2).begin)
      ((BinarySearchTree.ofList [2, 1, 3]).remove 2).end_ = false ∧
    Iterator.eq (Iterator.next (Iterator.next ((BinarySearchTree.ofList [2, 1, 3]).remove 2).begin))
      ((BinarySearchTree.ofList [2, 1, 3]).remove 2).end_ = true ∧
    BinarySearchTree.traverse 3 ((BinarySearchTree.ofList [2, 1, 3]).remove 2) = some [1, 3] :=
  ⟨Reachable.remove _ 2 (Reachable.insert _ 3 (Reachable.insert _ 1
    (Reachable.insert _ 2 Reachable.empty))), by decide, by decide, by decide, by decide⟩

/-- C13: for a tree of any shape, the loop that starts at `Iterator(root)` and applies
`operator++` until the cursor is null ends and yields the recursively defined in-order
sequence `inorder`; the cursor after `k` applications is the `k`-th node in in-order (each
node once, `numNodes root` of them), after `numNodes root` applications the iterator is in
the end state (null cursor, empty stack), and `operator++` leaves the end state as it is. -/
theorem iterator_refines_inorder [DecidableEq α] (root : Tree α) :
    (∀ fuel, numNodes root < fuel →
      BinarySearchTree.iterate fuel (Iterator.ofRoot root) (Iterator.ofRoot Tree.nil)
        = some (inorder root)) ∧
    (∀ k, (Iterator.next^[k] (Iterator.ofRoot root)).current
      = (inorderNodes root).getD k Tree.nil) ∧
    (inorderNodes root).length = numNodes root ∧
    (inorderNodes root).filterMap (fun n => Iterator.deref { current := n, path := [] })
      = inorder root ∧
    Iterator.next^[numNodes root] (Iterator.ofRoot root) = { current := Tree.nil, path := [] } ∧
    Iterator.next { current := (Tree.nil : Tree α), path := [] }
      = { current := Tree.nil, path := [] } := by
  refine ⟨?_, fun k => (ofRoot_iterate_current root k).1, length_inorderNodes root,
    deref_inorderNodes root, ?_, rfl⟩
  · intro fuel hf
    exact traverse_eq_inorder { root := root, tree_size := 0 } fuel hf
  · obtain ⟨h1, h2⟩ := ofRoot_iterate_current root (numNodes root)
    have hnil : (Iterator.next^[numNodes root] (Iterator.ofRoot root)).current = Tree.nil := by
      rw [h1]
      exact List.getD_eq_default _ _ (le_of_eq (length_inorderNodes root))
    have hpath := h2 hnil
    cases hit : Iterator.next^[numNodes root] (Iterator.ofRoot root) with
    | mk c p =>
      rw [hit] at hnil hpath
      simp only at hnil hpath
      rw [hnil, hpath]

/-- Witness of C13: on the tree built from 5, 3, 8, 3, 1 the loop yields 1, 3, 5, 8. -/
theorem iterator_refines_inorder_witness :
    BinarySearchTree.iterate 5 (Iterator.ofRoot (BinarySearchTree.ofList [5, 3, 8, 3, 1]).root)
      (Iterator.ofRoot Tree.nil) = some [1, 3, 5, 8] :=
  (iterator_refines_inorder (BinarySearchTree.ofList [5, 3, 8, 3, 1]).root).1 5 (by decide)

end ClaimsWalk

/-! ## Height -/

section Height

variable {α : Type}

theorem height_le_numNodes (t : Tree α) : height t ≤ numNodes t := by
  induction t with
  | nil => exact le_refl _
  | node l x r ihl ihr =>
    simp only [height, numNodes]
    have : Nat.max (height l) (height r) ≤ numNodes l + numNodes r :=
      Nat.max_le.2 ⟨by omega, by omega⟩
    omega

theorem height_chainRight (xs : List α) : height (chainRight xs) = xs.length := by
  induction xs with
  | nil => rfl
  | cons x xs ih =>
    simp only [chainRight, height, ih, List.length_cons]
    have : Nat.max 0 xs.length = xs.length := Nat.max_eq_right (Nat.zero_le _)
    omega

theorem height_chainLeft (xs : List α) : height (chainLeft xs) = xs.length := by
  induction xs with
  | nil => rfl
  | cons x xs ih =>
    simp only [chainLeft, height, ih, List.length_cons]
    have : Nat.max xs.length 0 = xs.length := Nat.max_eq_left (Nat.zero_le _)
    omega

variable [LinearOrder α]

theorem insert_slot_chainRight (pre : List α) (v : α) (h : ∀ x ∈ pre, x < v) :
    insert_slot (chainRight pre) v = some (chainRight (pre ++ [v])) := by
  induction pre with
  | nil => rfl
  | cons x pre ih =>
    have hx : x < v := h x (List.mem_cons_self _ _)
    have ih' := ih (fun y hy => h y (List.mem_cons_of_mem _ hy))
    simp [chainRight, insert_slot, not_lt_of_gt hx, hx, ih']

theorem insert_slot_chainLeft (pre : List α) (v : α) (h : ∀ x ∈ pre, v < x) :
    insert_slot (chainLeft pre) v = some (chainLeft (pre ++ [v])) := by
  induction pre with
  | nil => rfl
  | cons x pre ih =>
    have hx : v < x := h x (List.mem_cons_self _ _)
    have ih' := ih (fun y hy => h y (List.mem_cons_of_mem _ hy))
    simp [chainLeft, insert_slot, hx, ih']

/-- Inserting a strictly ascending sequence on top of a right chain of smaller values extends
the chain. -/
theorem foldl_insert_chainRight (vs pre : List α) (n : Nat)
    (h : (pre ++ vs).Sorted (fun a b => a < b)) :
    (vs.foldl BinarySearchTree.insert { root := chainRight pre, tree_size := n }).root
      = chainRight (pre ++ vs) := by
  induction vs generalizing pre n with
  | nil => simp
  | cons v vs ih =>
    have hlt : ∀ x ∈ pre, x < v := fun x hx =>
      (List.pairwise_append.1 h).2.2 x hx v (List.mem_cons_self _ _)
    have hstep : BinarySearchTree.insert { root := chainRight pre, tree_size := n } v
        = { root := chainRight (pre ++ [v]), tree_size := size_incr n } := by
      simp [BinarySearchTree.insert, insert_slot_chainRight pre v hlt]
    rw [List.foldl_cons, hstep, ih (pre ++ [v]) (size_incr n) (by simpa using h)]
    simp

theorem foldl_insert_chainLeft (vs pre : List α) (n : Nat)
    (h : (pre ++ vs).Sorted (fun a b => a > b)) :
    (vs.foldl BinarySearchTree.insert { root := chainLeft pre, tree_size := n }).root
      = chainLeft (pre ++ vs) := by
  induction vs generalizing pre n with
  | nil => simp
  | cons v vs ih =>
    have hlt : ∀ x ∈ pre, v < x := fun x hx =>
      (List.pairwise_append.1 h).2.2 x hx v (List.mem_cons_self _ _)
    have hstep : BinarySearchTree.insert { root := chainLeft pre, tree_size := n } v
        = { root := chainLeft (pre ++ [v]), tree_size := size_incr n } := by
      simp [BinarySearchTree.insert, insert_slot_chainLeft pre v hlt]
    rw [List.foldl_cons, hstep, ih (pre ++ [v]) (size_incr n) (by simpa using h)]
    simp

/-- C14: `height()` of the empty tree is 0 and of a one-node tree 1; the tree built by
inserting a strictly ascending or a strictly descending sequence of `N` values into the
empty tree is a linear chain and has `height()` `N`; at every node the height is
`1 + max(height(left), height(right))`, and `height()` never exceeds the number of nodes. -/
theorem height_spec :
    (BinarySearchTree.empty : BinarySearchTree α).height = 0 ∧
    (∀ v : α, (BinarySearchTree.ofList [v]).height = 1) ∧
    (∀ vs : List α, vs.Sorted (fun a b => a < b) →
      (BinarySearchTree.ofList vs).root = chainRight vs ∧
      (BinarySearchTree.ofList vs).height = vs.length) ∧
    (∀ vs : List α, vs.Sorted (fun a b => a > b) →
      (BinarySearchTree.ofList vs).root = chainLeft vs ∧
      (BinarySearchTree.ofList vs).height = vs.length) ∧
    (∀ (l : Tree α) (x : α) (r : Tree α) (n : Nat),
      BinarySearchTree.height { root := Tree.node l x r, tree_size := n }
        = 1 + Nat.max (height l) (height r)) ∧
    (∀ t : BinarySearchTree α, t.height ≤ numNodes t.root) := by
  refine ⟨rfl, fun v => rfl, ?_, ?_, fun l x r n => rfl, fun t => height_le_numNodes t.root⟩
  · intro vs hs
    have h := foldl_insert_chainRight vs [] 0 (by simpa using hs)
    have h' : (BinarySearchTree.ofList vs).root = chainRight vs := by simpa using h
    exact ⟨h', by rw [BinarySearchTree.height, h', height_chainRight]⟩
  · intro vs hs
    have h := foldl_insert_chainLeft vs [] 0 (by simpa using hs)
    have h' : (BinarySearchTree.ofList vs).root = chainLeft vs := by simpa using h
    exact ⟨h', by rw [BinarySearchTree.height, h', height_chainLeft]⟩

/-- Witness of C14: inserting 1, 2, 3, 4 gives height 4, and so does inserting 4, 3, 2, 1. -/
theorem height_spec_witness :
    (BinarySearchTree.ofList [1, 2, 3, 4]).height = 4 ∧
    (BinarySearchTree.ofList [4, 3, 2, 1]).height = 4 :=
  ⟨(height_spec.2.2.1 [1, 2, 3, 4] (by decide)).2, (height_spec.2.2.2.1 [4, 3, 2, 1] (by decide)).2⟩

end Height

/-! ## Structural equality -/

section Equality

variable {α : Type} [DecidableEq α]

theorem equal_iff (a b : Tree α) : equal a b = true ↔ a = b := by
  induction a generalizing b with
  | nil => cases b <;> simp [equal]
  | node la x ra ihl ihr =>
    cases b with
    | nil => simp [equal]
    | node lb y rb =>
      simp only [equal, Tree.node.injEq]
      by_cases hxy : x = y
      · simp [hxy, ihl, ihr]
      · simp [hxy]

theorem eq_iff (a b : BinarySearchTree α) :
    BinarySearchTree.eq a b = true ↔ a.size = b.size ∧ a.root = b.root := by
  simp [BinarySearchTree.eq, equal_iff]

end Equality

section ClaimsEquality

variable {α : Type}

/-- C15: when `a == b` is true the two trees have the same in-order sequence and the same
`size()`; so trees with different in-order sequences compare unequal with `==` and `!=`
is true on them. -/
theorem eq_true_same_values [DecidableEq α] (a b : BinarySearchTree α) :
    (BinarySearchTree.eq a b = true → inorder a.root = inorder b.root ∧ a.size = b.size) ∧
    (inorder a.root ≠ inorder b.root →
      BinarySearchTree.eq a b = false ∧ BinarySearchTree.ne a b = true) := by
  have h1 : BinarySearchTree.eq a b = true → inorder a.root = inorder b.root ∧ a.size = b.size := by
    intro h
    obtain ⟨hs, hr⟩ := (eq_iff a b).1 h
    exact ⟨by rw [hr], hs⟩
  refine ⟨h1, fun hne => ?_⟩
  cases h : BinarySearchTree.eq a b with
  | true => exact absurd (h1 h).1 hne
  | false => simp [BinarySearchTree.ne, h]

/-- Witness of C15: the trees built from 1, 3, 5, 9, 10, 23, 99 and from
3, 9, 22, 99, 3, 0, 11, 32 compare unequal. -/
theorem eq_true_same_values_witness :
    BinarySearchTree.eq (BinarySearchTree.ofList [1, 3, 5, 9, 10, 23, 99])
      (BinarySearchTree.ofList [3, 9, 22, 99, 3, 0, 11, 32]) = false ∧
    BinarySearchTree.ne (BinarySearchTree.ofList [1, 3, 5, 9, 10, 23, 99])
      (BinarySearchTree.ofList [3, 9, 22, 99, 3, 0, 11, 32]) = true :=
  (eq_true_same_values (BinarySearchTree.ofList [1, 3, 5, 9, 10, 23, 99])
    (BinarySearchTree.ofList [3, 9, 22, 99, 3, 0, 11, 32])).2 (by decide)

/-- C16: `operator==` is reflexive and symmetric, and two trees built by inserting the same
sequence of values into empty trees compare equal. -/
theorem eq_refl_symm [LinearOrder α] :
    (∀ t : BinarySearchTree α, BinarySearchTree.eq t t = true) ∧
    (∀ a b : BinarySearchTree α, BinarySearchTree.eq a b = BinarySearchTree.eq b a) ∧
    (∀ vs : List α,
      BinarySearchTree.eq (BinarySearchTree.ofList vs) (BinarySearchTree.ofList vs) = true) := by
  have hrefl : ∀ t : BinarySearchTree α, BinarySearchTree.eq t t = true :=
    fun t => (eq_iff t t).2 ⟨rfl, rfl⟩
  refine ⟨hrefl, fun a b => ?_, fun vs => hrefl _⟩
  cases h : BinarySearchTree.eq b a with
  | true =>
    obtain ⟨hs, hr⟩ := (eq_iff b a).1 h
    exact (eq_iff a b).2 ⟨hs.symm, hr.symm⟩
  | false =>
    cases h' : BinarySearchTree.eq a b with
    | false => rfl
    | true =>
      obtain ⟨hs, hr⟩ := (eq_iff a b).1 h'
      rw [(eq_iff b a).2 ⟨hs.symm, hr.symm⟩] at h
      exact absurd h (by simp)

/-- Witness of C16: two trees both built from 3, 9, 22, 99, 3, 0, 11, 32 compare equal, by
evaluation and as an instance of the third part. -/
theorem eq_refl_symm_witness :
    BinarySearchTree.eq (BinarySearchTree.ofList [3, 9, 22, 99, 3, 0, 11, 32])
      (BinarySearchTree.ofList [3, 9, 22, 99, 3, 0, 11, 32]) = true ∧
    BinarySearchTree.eq (BinarySearchTree.ofList [3, 9, 22, 99, 3, 0, 11, 32])
      (BinarySearchTree.ofList [3, 9, 22, 99, 3, 0, 11, 32]) = true :=
  ⟨by decide, eq_refl_symm.2.2 [3, 9, 22, 99, 3, 0, 11, 32]⟩

/-- C17: `a == b` is true exactly when the two trees have equal `size()` and the same tree
below the root, position by position (same presence of children, same values); the trees
built from 1, 2 and from 2, 1 have the same in-order sequence and the same `size()` and
compare unequal. -/
theorem eq_is_shape_equality [DecidableEq α] (a b : BinarySearchTree α) :
    (BinarySearchTree.eq a b = true ↔ a.size = b.size ∧ a.root = b.root) ∧
    inorder (BinarySearchTree.ofList [1, 2]).root = inorder (BinarySearchTree.ofList [2, 1]).root ∧
    (BinarySearchTree.ofList [1, 2]).size = (BinarySearchTree.ofList [2, 1]).size ∧
    BinarySearchTree.eq (BinarySearchTree.ofList [1, 2]) (BinarySearchTree.ofList [2, 1]) = false :=
  ⟨eq_iff a b, by decide, by decide, by decide⟩

/-- Witness of C17: the equivalence at the trees built from 1, 2 and from 2, 1, which differ
below the root. -/
theorem eq_is_shape_equality_witness :
    (BinarySearchTree.ofList [1, 2]).root ≠ (BinarySearchTree.ofList [2, 1]).root ∧
    (BinarySearchTree.eq (BinarySearchTree.ofList [1, 2]) (BinarySearchTree.ofList [2, 1]) = true ↔
      (BinarySearchTree.ofList [1, 2]).size = (BinarySearchTree.ofList [2, 1]).size ∧
      (BinarySearchTree.ofList [1, 2]).root = (BinarySearchTree.ofList [2, 1]).root) :=
  ⟨by decide, (eq_is_shape_equality (BinarySearchTree.ofList [1, 2])
    (BinarySearchTree.ofList [2, 1])).1⟩

end ClaimsEquality

/-! ## Copy, and the nodes with identities -/

section LemmasCopy

variable {α : Type}

theorem copy_eq (t : Tree α) : copy t = t := by
  induction t with
  | nil => rfl
  | node l x r ihl ihr => rw [copy, ihl, ihr]

theorem pcopy_erase (t : PTree α) (p : Option Nat) (n : Nat) :
    PTree.erase (pcopy t p n).1 = copy (PTree.erase t) := by
  induction t generalizing p n with
  | nil => rfl
  | node a q l x r ihl ihr => simp [pcopy, PTree.erase, copy, ihl, ihr]

/-- The nodes of a copy are exactly the nodes `new` hands out during the call. -/
theorem pcopy_fresh (t : PTree α) (p : Option Nat) (n : Nat) :
    n ≤ (pcopy t p n).2 ∧ ∀ a ∈ PTree.addrs (pcopy t p n).1, n ≤ a ∧ a < (pcopy t p n).2 := by
  induction t generalizing p n with
  | nil => simp [pcopy, PTree.addrs]
  | node b q l x r ihl ihr =>
    obtain ⟨hl1, hl2⟩ := ihl (some n) (n + 1)
    obtain ⟨hr1, hr2⟩ := ihr (some n) (pcopy l (some n) (n + 1)).2
    simp only [pcopy, PTree.addrs, List.mem_append, List.mem_cons]
    refine ⟨by omega, ?_⟩
    rintro a (ha | rfl | ha)
    · have := hl2 a ha
      omega
    · omega
    · have := hr2 a ha
      omega

theorem pcopy_parentsOK (t : PTree α) (p : Option Nat) (n : Nat) :
    parentsOK p (pcopy t p n).1 := by
  induction t generalizing p n with
  | nil => exact trivial
  | node b q l x r ihl ihr => exact ⟨rfl, ihl _ _, ihr _ _⟩

theorem pmin_node_erase (t : PTree α) : PTree.erase (pmin_node t) = min_node (PTree.erase t) := by
  induction t with
  | nil => rfl
  | node a p l x r ihl _ =>
    cases l with
    | nil => rfl
    | node la lp ll lx lr => simpa [pmin_node, min_node, PTree.erase] using ihl

theorem pmin_node_addrs (t : PTree α) : ∀ a ∈ PTree.addrs (pmin_node t), a ∈ PTree.addrs t := by
  induction t with
  | nil => simp [pmin_node]
  | node a p l x r ihl _ =>
    cases l with
    | nil => simp [pmin_node]
    | node la lp ll lx lr =>
      intro b hb
      have := ihl b (by simpa [pmin_node] using hb)
      simp only [PTree.addrs, List.mem_append, List.mem_cons] at this ⊢
      tauto

variable [LinearOrder α]

/-- On the values, the loop of `insert` on nodes with identities is `insert_slot`. -/
theorem pinsert_slot_erase (t : PTree α) (p : Option Nat) (v : α) (n : Nat) :
    (pinsert_slot t p v n).map PTree.erase = insert_slot (PTree.erase t) v := by
  induction t generalizing p with
  | nil => rfl
  | node a q l x r ihl ihr =>
    simp only [pinsert_slot, PTree.erase, insert_slot]
    split_ifs with h1 h2
    · rw [← ihl (some a)]
      cases pinsert_slot l (some a) v n <;> simp [PTree.erase]
    · rw [← ihr (some a)]
      cases pinsert_slot r (some a) v n <;> simp [PTree.erase]
    · rfl

/-- On the values, `remove` on nodes with identities is `remove_node`. -/
theorem premove_node_erase (t : PTree α) (v : α) (sz : Nat) :
    (PTree.erase (premove_node t v sz).1, (premove_node t v sz).2)
      = remove_node (PTree.erase t) v sz := by
  induction t generalizing v sz with
  | nil => rfl
  | node a q l x r ihl ihr =>
    simp only [premove_node, PTree.erase, remove_node]
    split_ifs with h1 h2
    · have := ihl v sz
      simp only [PTree.erase, ← this]
    · have := ihr v sz
      simp only [PTree.erase, ← this]
    · cases l with
      | nil => simp [PTree.erase]
      | node la lp ll lx lr =>
        cases r with
        | nil => simp [PTree.erase]
        | node ra rp rl rx rr =>
          have hm := pmin_node_erase (PTree.node ra rp rl rx rr)
          simp only [PTree.erase] at hm ⊢
          cases hp : pmin_node (PTree.node ra rp rl rx rr) with
          | nil =>
            rw [hp] at hm
            simp only [PTree.erase] at hm
            simp only [← hm, PTree.erase]
          | node ma mp ml mx mr =>
            rw [hp] at hm
            simp only [PTree.erase] at hm
            have := ihr mx sz
            simp only [PTree.erase] at this
            simp only [← hm, PTree.erase, ← this]

theorem pinsert_slot_parentsOK {t t' : PTree α} {p : Option Nat} {v : α} {n : Nat}
    (hok : parentsOK p t) (h : pinsert_slot t p v n = some t') : parentsOK p t' := by
  induction t generalizing p t' with
  | nil =>
    simp only [pinsert_slot, Option.some.injEq] at h
    subst h
    exact ⟨rfl, trivial, trivial⟩
  | node a q l x r ihl ihr =>
    obtain ⟨hq, hl, hr⟩ := hok
    simp only [pinsert_slot] at h
    split_ifs at h with h1 h2
    · obtain ⟨l', hl', rfl⟩ := Option.map_eq_some'.1 h
      exact ⟨hq, ihl hl hl', hr⟩
    · obtain ⟨r', hr', rfl⟩ := Option.map_eq_some'.1 h
      exact ⟨hq, hl, ihr hr hr'⟩

theorem pinsert_slot_addrs {t t' : PTree α} {p : Option Nat} {v : α} {n : Nat}
    (h : pinsert_slot t p v n = some t') :
    ∀ a ∈ PTree.addrs t', a = n ∨ a ∈ PTree.addrs t := by
  induction t generalizing p t' with
  | nil =>
    simp only [pinsert_slot, Option.some.injEq] at h
    subst h
    simp [PTree.addrs]
  | node b q l x r ihl ihr =>
    simp only [pinsert_slot] at h
    split_ifs at h with h1 h2
    · obtain ⟨l', hl', rfl⟩ := Option.map_eq_some'.1 h
      intro a ha
      simp only [PTree.addrs, List.mem_append, List.mem_cons] at ha ⊢
      rcases ha with ha | ha | ha
      · have := ihl hl' a ha
        tauto
      · tauto
      · tauto
    · obtain ⟨r', hr', rfl⟩ := Option.map_eq_some'.1 h
      intro a ha
      simp only [PTree.addrs, List.mem_append, List.mem_cons] at ha ⊢
      rcases ha with ha | ha | ha
      · tauto
      · tauto
      · have := ihr hr' a ha
        tauto

theorem premove_node_addrs (t : PTree α) (v : α) (sz : Nat) :
    ∀ a ∈ PTree.addrs (premove_node t v sz).1, a ∈ PTree.addrs t := by
  induction t generalizing v sz with
  | nil => simp [premove_node]
  | node b q l x r ihl ihr =>
    intro a
    simp only [premove_node]
    split_ifs with h1 h2
    · intro ha
      simp only [PTree.addrs, List.mem_append, List.mem_cons] at ha ⊢
      rcases ha with ha | ha | ha
      · exact Or.inl (ihl v sz a ha)
      · tauto
      · tauto
    · intro ha
      simp only [PTree.addrs, List.mem_append, List.mem_cons] at ha ⊢
      rcases ha with ha | ha | ha
      · tauto
      · tauto
      · exact Or.inr (Or.inr (ihr v sz a ha))
    · cases l with
      | nil =>
        intro ha
        simp only [PTree.addrs, List.mem_append, List.mem_cons] at ha ⊢
        tauto
      | node la lp ll lx lr =>
        cases r with
        | nil =>
          intro ha
          simp only [PTree.addrs, List.mem_append, List.mem_cons] at ha ⊢
          tauto
        | node ra rp rl rx rr =>
          simp only
          cases hp : pmin_node (PTree.node ra rp rl rx rr) with
          | nil => exact fun ha => ha
          | node ma mp ml mx mr =>
            intro ha
            simp only [PTree.addrs, List.mem_append, List.mem_cons] at ha ⊢
            rcases ha with ha | ha | ha
            · tauto
            · tauto
            · have := ihr mx sz a ha
              simp only [PTree.addrs, List.mem_append, List.mem_cons] at this
              tauto

theorem pinsert_erase (s : PBinarySearchTree α) (v : α) (n : Nat) :
    (s.insert v n).1.erase = s.erase.insert v := by
  have h := pinsert_slot_erase s.root none v n
  unfold PBinarySearchTree.insert BinarySearchTree.insert
  simp only [PBinarySearchTree.erase]
  rw [← h]
  cases pinsert_slot s.root none v n <;> rfl

theorem premove_erase (s : PBinarySearchTree α) (v : α) :
    (s.remove v).erase = s.erase.remove v := by
  have h := premove_node_erase s.root v s.tree_size
  simp only [PBinarySearchTree.remove, BinarySearchTree.remove, PBinarySearchTree.erase, ← h]

omit [LinearOrder α] in
theorem pcopy_ctor_erase (s : PBinarySearchTree α) (n : Nat) :
    (s.copy_ctor n).1.erase = s.erase.copy_ctor := by
  simp [PBinarySearchTree.copy_ctor, BinarySearchTree.copy_ctor, PBinarySearchTree.erase,
    pcopy_erase]

theorem pinsert_addrs (s : PBinarySearchTree α) (v : α) (n : Nat) :
    ∀ a ∈ PTree.addrs (s.insert v n).1.root, a = n ∨ a ∈ PTree.addrs s.root := by
  unfold PBinarySearchTree.insert
  cases h : pinsert_slot s.root none v n with
  | none => exact fun a ha => Or.inr ha
  | some r => exact pinsert_slot_addrs h

/-- The sibling paths of `remove`: `insert` keeps the `_parent` fields consistent. -/
theorem pinsert_parentsOK (s : PBinarySearchTree α) (v : α) (n : Nat)
    (hok : parentsOK none s.root) : parentsOK none (s.insert v n).1.root := by
  unfold PBinarySearchTree.insert
  cases h : pinsert_slot s.root none v n with
  | none => exact hok
  | some r => exact pinsert_slot_parentsOK hok h

end LemmasCopy

/-! ## The claims on copy, move and the parent links -/

section ClaimsCopy

variable {α : Type} [LinearOrder α]

/-- C18: the copy constructor and the copy assignment from a distinct source give a tree with
the shape, the values and the counter of the source, so `copy == source` is true and the
in-order sequences agree.  On nodes with identities the copy has the same values, all its
nodes are newly allocated, and the nodes of the tree after an `insert` or a `remove` on the
copy are nodes of the copy or new: none is a node of the source, and likewise with source
and copy exchanged.  The two objects share no node, so a call on one writes no node of the
other. -/
theorem copy_reproduces_source (t : BinarySearchTree α) :
    t.copy_ctor = t ∧
    (∀ self : BinarySearchTree α, BinarySearchTree.copy_assign self t true = t) ∧
    BinarySearchTree.eq t.copy_ctor t = true ∧
    inorder t.copy_ctor.root = inorder t.root ∧
    t.copy_ctor.size = t.size ∧
    ∀ (s : PBinarySearchTree α) (n : Nat), s.erase = t → (∀ a ∈ PTree.addrs s.root, a < n) →
      (s.copy_ctor n).1.erase = t ∧
      (∀ a ∈ PTree.addrs (s.copy_ctor n).1.root, a ∉ PTree.addrs s.root) ∧
      ∀ v : α,
        (((s.copy_ctor n).1.insert v (s.copy_ctor n).2).1.erase = t.insert v ∧
          ∀ a ∈ PTree.addrs ((s.copy_ctor n).1.insert v (s.copy_ctor n).2).1.root,
            a ∉ PTree.addrs s.root) ∧
        (((s.copy_ctor n).1.remove v).erase = t.remove v ∧
          ∀ a ∈ PTree.addrs ((s.copy_ctor n).1.remove v).root, a ∉ PTree.addrs s.root) ∧
        (∀ a ∈ PTree.addrs (s.insert v (s.copy_ctor n).2).1.root,
          a ∉ PTree.addrs (s.copy_ctor n).1.root) ∧
        (∀ a ∈ PTree.addrs (s.remove v).root, a ∉ PTree.addrs (s.copy_ctor n).1.root) := by
  have hc : t.copy_ctor = t := by
    obtain ⟨root, sz⟩ := t
    simp [BinarySearchTree.copy_ctor, copy_eq]
  refine ⟨hc, fun self => ?_, ?_, by rw [hc], by rw [hc], ?_⟩
  · simpa [BinarySearchTree.copy_assign, BinarySearchTree.copy_ctor] using hc
  · rw [hc]
    exact (eq_iff t t).2 ⟨rfl, rfl⟩
  · intro s n hs hn
    obtain ⟨hle, hfresh⟩ := pcopy_fresh s.root none n
    have hcopy : ∀ a ∈ PTree.addrs (s.copy_ctor n).1.root, n ≤ a ∧ a < (s.copy_ctor n).2 :=
      hfresh
    have herase : (s.copy_ctor n).1.erase = t := by rw [pcopy_ctor_erase, hs, hc]
    refine ⟨herase, ?_, fun v => ⟨⟨?_, ?_⟩, ⟨?_, ?_⟩, ?_, ?_⟩⟩
    · intro a ha hsa
      have := (hcopy a ha).1
      have := hn a hsa
      omega
    · rw [pinsert_erase, herase]
    · intro a ha hsa
      have h2 := hn a hsa
      rcases pinsert_addrs _ v _ a ha with rfl | ha'
      · have : n ≤ (s.copy_ctor n).2 := hle
        omega
      · have := (hcopy a ha').1
        omega
    · rw [premove_erase, herase]
    · intro a ha hsa
      have h2 := hn a hsa
      have := (hcopy a (premove_node_addrs _ v _ a ha)).1
      omega
    · intro a ha hca
      have h2 := hcopy a hca
      rcases pinsert_addrs _ v _ a ha with rfl | ha'
      · omega
      · have := hn a ha'
        omega
    · intro a ha hca
      have h2 := hcopy a hca
      have := hn a (premove_node_addrs _ v _ a ha)
      omega

/-- Witness of C18: the copy of the tree built from 5, 3, 8, 3, 1 is that tree, and on nodes
with identities its four nodes are new ones. -/
theorem copy_reproduces_source_witness :
    (BinarySearchTree.ofList [5, 3, 8, 3, 1]).copy_ctor = BinarySearchTree.ofList [5, 3, 8, 3, 1] ∧
    PTree.addrs (PBinarySearchTree.ofList [5, 3, 8, 3, 1]).1.root = [3, 1, 0, 2] ∧
    PTree.addrs ((PBinarySearchTree.ofList [5, 3, 8, 3, 1]).1.copy_ctor 4).1.root = [6, 5, 4, 7] ∧
    ∀ a ∈ PTree.addrs ((PBinarySearchTree.ofList [5, 3, 8, 3, 1]).1.copy_ctor 4).1.root,
      a ∉ PTree.addrs (PBinarySearchTree.ofList [5, 3, 8, 3, 1]).1.root :=
  ⟨(copy_reproduces_source (BinarySearchTree.ofList [5, 3, 8, 3, 1])).1, by decide, by decide,
    ((copy_reproduces_source (BinarySearchTree.ofList [5, 3, 8, 3, 1])).2.2.2.2.2
      (PBinarySearchTree.ofList [5, 3, 8, 3, 1]).1 4 (by decide) (by decide)).2.1⟩

/-- C19: the move constructor and the move assignment from a distinct source leave the source
with a null root and `size()` 0, so `empty()` is true and `find(v)` is false on it for every
`v`; the destination has root, counter and in-order sequence of the source before the call,
whatever it held before. -/
theorem move_transfers_state (self other : BinarySearchTree α) :
    ((BinarySearchTree.move_ctor other).1 = other ∧
      (BinarySearchTree.move_ctor other).2.root = Tree.nil ∧
      (BinarySearchTree.move_ctor other).2.size = 0 ∧
      (BinarySearchTree.move_ctor other).2.isEmpty = true ∧
      (∀ v : α, (BinarySearchTree.move_ctor other).2.find v = false) ∧
      inorder (BinarySearchTree.move_ctor other).1.root = inorder other.root ∧
      (BinarySearchTree.move_ctor other).1.size = other.size) ∧
    ((BinarySearchTree.move_assign self other true).1 = other ∧
      (BinarySearchTree.move_assign self other true).2.root = Tree.nil ∧
      (BinarySearchTree.move_assign self other true).2.size = 0 ∧
      (BinarySearchTree.move_assign self other true).2.isEmpty = true ∧
      (∀ v : α, (BinarySearchTree.move_assign self other true).2.find v = false) ∧
      inorder (BinarySearchTree.move_assign self other true).1.root = inorder other.root ∧
      (BinarySearchTree.move_assign self other true).1.size = other.size) :=
  ⟨⟨rfl, rfl, rfl, rfl, fun _ => rfl, rfl, rfl⟩, ⟨rfl, rfl, rfl, rfl, fun _ => rfl, rfl, rfl⟩⟩

/-- Witness of C19: moving the tree built from 5, 3, 8, 3, 1 into a tree that held 7 gives the
walk 1, 3, 5, 8 on the destination and leaves a source on which 5 is not found. -/
theorem move_transfers_state_witness :
    inorder (BinarySearchTree.move_assign (BinarySearchTree.ofList [7])
      (BinarySearchTree.ofList [5, 3, 8, 3, 1]) true).1.root = [1, 3, 5, 8] ∧
    (BinarySearchTree.move_assign (BinarySearchTree.ofList [7])
      (BinarySearchTree.ofList [5, 3, 8, 3, 1]) true).2.find 5 = false :=
  ⟨by decide, (move_transfers_state (BinarySearchTree.ofList [7])
    (BinarySearchTree.ofList [5, 3, 8, 3, 1])).2.2.2.2.2.1 5⟩

/-- C20, evaluated at its failing inputs.  After inserting 2 and 1 the `_parent` fields are
consistent; `remove(2)` puts the left child (address 1) into the root slot with its
`_parent` field still holding address 0, the freed node, where the root must hold null.
After inserting 1, 2, 3, `remove(2)` puts node 3 (address 2) into the right slot of node 1
(address 0) with its `_parent` field still holding address 1, the freed node.  Both trees
are reachable. -/
theorem parent_links_after_remove :
    PReachable (PBinarySearchTree.ofList [2, 1]).1 (PBinarySearchTree.ofList [2, 1]).2 ∧
    parentsOK none (PBinarySearchTree.ofList [2, 1]).1.root ∧
    PReachable ((PBinarySearchTree.ofList [2, 1]).1.remove 2) (PBinarySearchTree.ofList [2, 1]).2 ∧
    ((PBinarySearchTree.ofList [2, 1]).1.remove 2).root
      = PTree.node 1 (some 0) PTree.nil 1 PTree.nil ∧
    PTree.parentField ((PBinarySearchTree.ofList [2, 1]).1.remove 2).root = some 0 ∧
    0 ∉ PTree.addrs ((PBinarySearchTree.ofList [2, 1]).1.remove 2).root ∧
    ¬ parentsOK none ((PBinarySearchTree.ofList [2, 1]).1.remove 2).root ∧
    parentsOK none (PBinarySearchTree.ofList [1, 2, 3]).1.root ∧
    PReachable ((PBinarySearchTree.ofList [1, 2, 3]).1.remove 2)
      (PBinarySearchTree.ofList [1, 2, 3]).2 ∧
    ((PBinarySearchTree.ofList [1, 2, 3]).1.remove 2).root
      = PTree.node 0 none PTree.nil 1 (PTree.node 2 (some 1) PTree.nil 3 PTree.nil) ∧
    ¬ parentsOK none ((PBinarySearchTree.ofList [1, 2, 3]).1.remove 2).root :=
  ⟨PReachable.insert _ _ 1 (PReachable.insert _ _ 2 (PReachable.empty 0)), by decide,
    PReachable.remove _ _ 2 (PReachable.insert _ _ 1 (PReachable.insert _ _ 2
      (PReachable.empty 0))), by decide, by decide, by decide, by decide, by decide,
    PReachable.remove _ _ 2 (PReachable.insert _ _ 3 (PReachable.insert _ _ 2
      (PReachable.insert _ _ 1 (PReachable.empty 0)))), by decide, by decide⟩

end ClaimsCopy

end BST
